import Mathlib

/-!
A verification development for the `typed-storage` library (`src/main.ts`):
a typed accessor layer over a string key-value store (the DOM `Storage`
concept), with pluggable converters and a process-wide key-collision
registry.

The embedding is shallow and state-passing:
* the mutable world (every backing store's contents plus the module-level
  `takenKeys` registry) is an explicit `World` value threaded through the
  operations;
* backing stores are identified by an identity type `ι` (the source's
  `Map<Storage, Set<string>>` is keyed by object identity);
* JS `null` results become `Option.none`;
* throwing constructors are modelled by returning the mutated world
  together with `Option.none` (JS exceptions do not roll back mutations
  already performed).
-/

namespace TS

/-- `Converter<Value>` from `src/main.ts`: a `parse`/`stringify` pair.
JS `null | Value` is modelled as `Option V`. -/
structure Conv (V : Type) where
  parse : String → Option V
  stringify : V → String

/-- The converter record `Converters<Body>`: an insertion-ordered list of
(field name, converter) pairs, mirroring a JS object's own keys in
`Object.keys` order.  A JS object cannot repeat a key, so theorems assume
the name list is duplicate-free where it matters. -/
abbrev Schema (V : Type) := List (String × Conv V)

/-- Converter lookup `converters[key]`; `none` models the `undefined`
lookup, which the source's type system rules out for its operations. -/
def findConv {V : Type} (sch : Schema V) (k : String) : Option (Conv V) :=
  (sch.find? (fun p => decide (p.1 = k))).map (fun p => p.2)

/-- The mutable world: contents of every backing store (`stores i` is the
string map of store `i`) plus the module-level `takenKeys` registry.
A store with no registry entry is modelled by the empty set, matching
`getTakenKey`'s lazy get-or-create. -/
structure World (ι : Type) where
  stores : ι → String → Option String
  taken : ι → Finset String

/-- A constructed `TypedStorage<Body>` instance: its backing store
identity, its key prefix (source field `prefix`, a Lean keyword, hence
renamed `pre`) and its converter record. -/
structure TypedStorage (ι V : Type) where
  storage : ι
  pre : String
  converters : Schema V

/-- The constructor's registry loop over `Object.keys(converters)`:
`if (takenField.has(storeKey)) throw ...; takenField.add(storeKey)`.
Returns the registry set as mutated so far together with a success flag;
on failure the keys added before the collision stay added, exactly as the
source's in-place `Set.add` calls survive the `throw`. -/
def claimLoop (tk : Finset String) : List String → Finset String × Bool
  | [] => (tk, true)
  | k :: ks => if k ∈ tk then (tk, false) else claimLoop (insert k tk) ks

/-- The effective keys `prefix + key` of a schema, in `Object.keys` order. -/
def effKeys {V : Type} (pre : String) (sch : Schema V) : List String :=
  sch.map (fun p => pre ++ p.1)

/-- `new TypedStorage(storage, prefix, converters)` (after overload
resolution): runs the registry loop and either returns the instance or,
on a key collision, throws — modelled as `none` — leaving the registry
as the loop left it. The backing store contents are untouched either way. -/
def construct {ι V : Type} [DecidableEq ι] (w : World ι) (s : ι) (pre : String)
    (sch : Schema V) : World ι × Option (TypedStorage ι V) :=
  let res := claimLoop (w.taken s) (effKeys pre sch)
  ({ w with taken := fun j => if j = s then res.1 else w.taken j },
   if res.2 then some ⟨s, pre, sch⟩ else none)

/-- The constructor's argument list before overload resolution: either
`(storage, converters)` or `(storage, prefix, converters)`. -/
inductive CtorArgs (V : Type) where
  | convOnly (converters : Schema V)
  | preAndConv (pre : String) (converters : Schema V)

/-- The overloaded constructor body: `if (typeof prefix !== "string")
[prefix, converters] = ["", prefix]`, then the registry loop.  The
`!converters` TypeError branch is structurally unreachable here, as the
source itself notes ("this should be unreachable"). -/
def constructorOverload {ι V : Type} [DecidableEq ι] (w : World ι) (s : ι)
    (a : CtorArgs V) : World ι × Option (TypedStorage ι V) :=
  match a with
  | .convOnly conv => construct w s "" conv
  | .preAndConv p conv => construct w s p conv

/-- The effective key `this.prefix + key` of a field. -/
def effKey {ι V : Type} (t : TypedStorage ι V) (k : String) : String :=
  t.pre ++ k

/-- `getItem(key)`: raw read at the effective key; `null` (absent) maps to
`none`, otherwise the field's `parse` runs on the stored string.  The
`findConv = none` case is unreachable under the source's types. -/
def getItem {ι V : Type} (w : World ι) (t : TypedStorage ι V) (k : String) :
    Option V :=
  match w.stores t.storage (effKey t k) with
  | none => none
  | some raw =>
    match findConv t.converters k with
    | none => none
    | some c => c.parse raw

/-- `hasItem(key)`: literally `this.getItem(key) != null`. -/
def hasItem {ι V : Type} (w : World ι) (t : TypedStorage ι V) (k : String) :
    Bool :=
  (getItem w t k).isSome

/-- Raw store write/removal at one key of one store (`Storage.setItem` /
`Storage.removeItem`); every other key and every other store is untouched. -/
def setStore {ι : Type} [DecidableEq ι] (w : World ι) (s : ι) (key : String)
    (v : Option String) : World ι :=
  { w with
    stores := fun j =>
      if j = s then (fun k => if k = key then v else w.stores j k)
      else w.stores j }

/-- `setItem(key, value)`: stringify via the field's converter, write the
raw string at the effective key.  The missing-converter case is
unreachable under the source's types and is modelled as a no-op. -/
def setItem {ι V : Type} [DecidableEq ι] (w : World ι) (t : TypedStorage ι V)
    (k : String) (v : V) : World ι :=
  match findConv t.converters k with
  | none => w
  | some c => setStore w t.storage (effKey t k) (some (c.stringify v))

/-- `removeItem(key)`: unconditional raw removal at the effective key. -/
def removeItem {ι V : Type} [DecidableEq ι] (w : World ι)
    (t : TypedStorage ι V) (k : String) : World ι :=
  setStore w t.storage (effKey t k) none

/-- `setDefaults(body)`: for each key of the supplied record in order,
`if (!this.hasItem(key)) this.setItem(key, body[key])`. -/
def setDefaults {ι V : Type} [DecidableEq ι] (w : World ι)
    (t : TypedStorage ι V) (defaults : List (String × V)) : World ι :=
  defaults.foldl
    (fun w' p => if hasItem w' t p.1 then w' else setItem w' t p.1 p.2) w

/-- `booleanConverter`: `"0"`/`"1"` encoding, anything else parses to null. -/
def booleanConverter : Conv Bool where
  parse := fun v => if v = "0" then some false
    else if v = "1" then some true else none
  stringify := fun b => cond b "1" "0"

/-- `stringConverter`: both directions are the identity. -/
def stringConverter : Conv String where
  parse := fun v => some v
  stringify := fun v => v

/-- `enumConverterFactory(enumTuple)`: parse checks membership in the
supplied member list, stringify is the identity.  The TS `Enum` string
subtype is modelled as `String` together with a membership hypothesis. -/
def enumConverterFactory (enumTuple : List String) : Conv String where
  parse := fun v => if v ∈ enumTuple then some v else none
  stringify := fun v => v

theorem world_ext {ι : Type} {a b : World ι} (h1 : a.stores = b.stores)
    (h2 : a.taken = b.taken) : a = b := by
  cases a; cases b; exact congrArg₂ World.mk h1 h2

theorem string_append_cancel {p a b : String} (h : p ++ a = p ++ b) :
    a = b := by
  have h2 : (p ++ a).data = (p ++ b).data := congrArg String.data h
  rw [String.data_append, String.data_append] at h2
  exact String.ext (List.append_cancel_left h2)

theorem effKey_inj {ι V : Type} (t : TypedStorage ι V) {k1 k2 : String}
    (h : effKey t k1 = effKey t k2) : k1 = k2 :=
  string_append_cancel h

theorem claimLoop_subset (tk : Finset String) (keys : List String) :
    tk ⊆ (claimLoop tk keys).1 := by
  induction keys generalizing tk with
  | nil => exact fun _ h => h
  | cons k ks ih =>
    by_cases hk : k ∈ tk
    · simp [claimLoop, hk]
    · simp only [claimLoop, if_neg hk]
      exact fun x hx => ih (insert k tk) (Finset.mem_insert_of_mem hx)

theorem claimLoop_mem_of_success (tk : Finset String) (keys : List String)
    (h : (claimLoop tk keys).2 = true) :
    ∀ k ∈ keys, k ∈ (claimLoop tk keys).1 := by
  induction keys generalizing tk with
  | nil => intro k hk; cases hk
  | cons j ks ih =>
    by_cases hj : j ∈ tk
    · simp [claimLoop, hj] at h
    · simp only [claimLoop, if_neg hj] at h ⊢
      intro k hk
      rcases List.mem_cons.mp hk with rfl | hk
      · exact claimLoop_subset _ _ (Finset.mem_insert_self k tk)
      · exact ih (insert j tk) h k hk

theorem claimLoop_fail_of_mem (tk : Finset String) (keys : List String)
    (h : ∃ k ∈ keys, k ∈ tk) : (claimLoop tk keys).2 = false := by
  induction keys generalizing tk with
  | nil => rcases h with ⟨k, hk, _⟩; cases hk
  | cons j ks ih =>
    by_cases hj : j ∈ tk
    · simp [claimLoop, hj]
    · simp only [claimLoop, if_neg hj]
      rcases h with ⟨k, hk, hktk⟩
      rcases List.mem_cons.mp hk with rfl | hk
      · exact absurd hktk hj
      · exact ih (insert j tk) ⟨k, hk, Finset.mem_insert_of_mem hktk⟩

theorem claimLoop_success (tk : Finset String) (keys : List String)
    (hnd : keys.Nodup) (hdisj : ∀ k ∈ keys, k ∉ tk) :
    claimLoop tk keys = (tk ∪ keys.toFinset, true) := by
  induction keys generalizing tk with
  | nil => simp [claimLoop]
  | cons j ks ih =>
    have hj : j ∉ tk := hdisj j (List.mem_cons_self j ks)
    simp only [claimLoop, if_neg hj]
    rw [ih (insert j tk) (List.nodup_cons.mp hnd).2 (fun k hk => by
      intro hmem
      rcases Finset.mem_insert.mp hmem with rfl | hmem
      · exact (List.nodup_cons.mp hnd).1 hk
      · exact hdisj k (List.mem_cons_of_mem j hk) hmem)]
    congr 1
    rw [List.toFinset_cons]
    ext x
    simp only [Finset.mem_union, Finset.mem_insert]
    tauto

theorem claimLoop_cons (tk : Finset String) (j : String) (ks : List String) :
    claimLoop tk (j :: ks) =
      if j ∈ tk then (tk, false) else claimLoop (insert j tk) ks :=
  rfl

theorem claimLoop_fail (tk : Finset String) (l₁ l₂ : List String)
    (k : String) (h₁ : ∀ j ∈ l₁, j ∉ tk) (hnd : l₁.Nodup) (hk : k ∈ tk) :
    claimLoop tk (l₁ ++ k :: l₂) = (tk ∪ l₁.toFinset, false) := by
  induction l₁ generalizing tk with
  | nil => simp [claimLoop, hk]
  | cons j js ih =>
    have hj : j ∉ tk := h₁ j (List.mem_cons_self j js)
    rw [List.cons_append, claimLoop_cons, if_neg hj,
      ih (insert j tk) (fun i hi => by
        intro hmem
        rcases Finset.mem_insert.mp hmem with rfl | hmem
        · exact (List.nodup_cons.mp hnd).1 hi
        · exact h₁ i (List.mem_cons_of_mem j hi) hmem)
      (List.nodup_cons.mp hnd).2 (Finset.mem_insert_of_mem hk)]
    congr 1
    rw [List.toFinset_cons]
    ext x
    simp only [Finset.mem_union, Finset.mem_insert]
    tauto

theorem construct_taken {ι V : Type} [DecidableEq ι] (w : World ι) (s : ι)
    (pre : String) (sch : Schema V) :
    (construct w s pre sch).1.taken =
      fun j => if j = s then (claimLoop (w.taken s) (effKeys pre sch)).1
        else w.taken j :=
  rfl

theorem construct_stores {ι V : Type} [DecidableEq ι] (w : World ι) (s : ι)
    (pre : String) (sch : Schema V) :
    (construct w s pre sch).1.stores = w.stores :=
  rfl

theorem construct_snd {ι V : Type} [DecidableEq ι] (w : World ι) (s : ι)
    (pre : String) (sch : Schema V) :
    (construct w s pre sch).2 =
      if (claimLoop (w.taken s) (effKeys pre sch)).2 then some ⟨s, pre, sch⟩
      else none :=
  rfl

/-- The world (taken component) and schemas used by the concrete
collision scenarios below: a one-store world in which the effective key
`"b"` is already claimed. -/
def cexWorld : World Bool where
  stores := fun _ _ => none
  taken := fun j => if j = true then {"b"} else ∅

/-- Schema `{a: string, b: string}` in this field order. -/
def cexSchema : Schema String :=
  [("a", stringConverter), ("b", stringConverter)]

/-- C1, counterexample: constructing `{a, b}` with empty prefix against a
store whose registry already holds `"b"` fails, yet afterwards the
registry also holds `"a"` — the failed construction did claim a key, so
the claimed-key set is not what it was before the attempt. -/
theorem c1_counterexample :
    (construct cexWorld true "" cexSchema).2 = none ∧
    (construct cexWorld true "" cexSchema).1.taken true ≠
      cexWorld.taken true := by
  constructor
  · rfl
  · intro h
    have ha : "a" ∈ (construct cexWorld true "" cexSchema).1.taken true := by
      decide
    rw [h] at ha
    revert ha
    decide

/-- C1, amended: construction is not atomic.  If the effective keys are
`l₁ ++ k :: l₂` where the keys of `l₁` are collision-free (and distinct)
and `k` is already claimed, the construction fails and the registry for
that store afterwards is the old set united with the keys of `l₁` — the
fields processed before the colliding one stay claimed.  Other stores'
registries and all store contents are untouched. -/
theorem c1_nonatomic_fail {ι V : Type} [DecidableEq ι] (w : World ι) (s : ι)
    (pre : String) (sch : Schema V) (l₁ l₂ : List String) (k : String)
    (hsplit : effKeys pre sch = l₁ ++ k :: l₂)
    (h₁ : ∀ j ∈ l₁, j ∉ w.taken s) (hnd : l₁.Nodup) (hk : k ∈ w.taken s) :
    (construct w s pre sch).2 = none ∧
    (construct w s pre sch).1.taken s = w.taken s ∪ l₁.toFinset ∧
    (∀ j, j ≠ s → (construct w s pre sch).1.taken j = w.taken j) ∧
    (construct w s pre sch).1.stores = w.stores := by
  have hcl := claimLoop_fail (w.taken s) l₁ l₂ k h₁ hnd hk
  refine ⟨?_, ?_, ?_, rfl⟩
  · rw [construct_snd, hsplit, hcl]
    simp
  · rw [construct_taken, hsplit, hcl]
    simp
  · intro j hj
    rw [construct_taken, hsplit, hcl]
    simp [hj]

theorem c1_nonatomic_fail_witness :
    (construct cexWorld true "" cexSchema).2 = none ∧
    (construct cexWorld true "" cexSchema).1.taken true =
      cexWorld.taken true ∪ (["a"] : List String).toFinset :=
  ⟨(c1_nonatomic_fail cexWorld true "" cexSchema ["a"] [] "b" (by decide)
      (by decide) (by decide) (by decide)).1,
   (c1_nonatomic_fail cexWorld true "" cexSchema ["a"] [] "b" (by decide)
      (by decide) (by decide) (by decide)).2.1⟩

/-- C2: if a second construction against the same store has any effective
key that is already among the first (successful) construction's effective
keys, the second construction fails, and the first instance's operations
are unaffected: the failed attempt leaves every store's contents
unchanged, so every `getItem` of the first instance reads as before (and
`hasItem`/`setItem`/`removeItem`, being functions of the same state, with
it). -/
theorem c2_second_construction_fails {ι V : Type} [DecidableEq ι]
    (w w₁ : World ι) (s : ι) (p₁ p₂ : String) (sch₁ sch₂ : Schema V)
    (t₁ : TypedStorage ι V) (h1 : construct w s p₁ sch₁ = (w₁, some t₁))
    (hov : ∃ k ∈ effKeys p₂ sch₂, k ∈ effKeys p₁ sch₁) :
    (construct w₁ s p₂ sch₂).2 = none ∧
    (construct w₁ s p₂ sch₂).1.stores = w₁.stores ∧
    ∀ k, getItem (construct w₁ s p₂ sch₂).1 t₁ k = getItem w₁ t₁ k := by
  have hsucc : (claimLoop (w.taken s) (effKeys p₁ sch₁)).2 = true := by
    have h2 := congrArg Prod.snd h1
    rw [construct_snd] at h2
    by_cases hb : (claimLoop (w.taken s) (effKeys p₁ sch₁)).2
    · exact hb
    · rw [if_neg (by simp [hb])] at h2; cases h2
  have htk : ∀ k ∈ effKeys p₁ sch₁, k ∈ w₁.taken s := by
    intro k hk
    have := claimLoop_mem_of_success (w.taken s) (effKeys p₁ sch₁) hsucc k hk
    have hw₁ : w₁.taken = (construct w s p₁ sch₁).1.taken := by
      rw [h1]
    rw [hw₁, construct_taken]
    simpa using this
  rcases hov with ⟨k, hk₂, hk₁⟩
  have hfail := claimLoop_fail_of_mem (w₁.taken s) (effKeys p₂ sch₂)
    ⟨k, hk₂, htk k hk₁⟩
  refine ⟨?_, rfl, fun _ => rfl⟩
  rw [construct_snd, hfail]
  rfl

/-- An empty world over two stores (`false` and `true`). -/
def emptyWorld : World Bool where
  stores := fun _ _ => none
  taken := fun _ => ∅

/-- Schema `{a: string}`. -/
def schemaA : Schema String := [("a", stringConverter)]

theorem c2_second_construction_fails_witness :
    (construct (construct emptyWorld true "" schemaA).1 true "" schemaA).2 =
      none ∧
    ∀ k, getItem (construct (construct emptyWorld true "" schemaA).1 true ""
        schemaA).1 ⟨true, "", schemaA⟩ k =
      getItem (construct emptyWorld true "" schemaA).1 ⟨true, "", schemaA⟩
        k := by
  have h := c2_second_construction_fails emptyWorld
    (construct emptyWorld true "" schemaA).1 true "" "" schemaA schemaA
    ⟨true, "", schemaA⟩ rfl ⟨"a", by decide, by decide⟩
  exact ⟨h.1, h.2.2⟩

/-- C4: `getItem` returns `none` when the store has no entry at the
effective key; when an entry exists it returns the converter's parse of
the stored string, hence `none` again when that parse fails — absent and
unparseable are indistinguishable in the result. -/
theorem c4_getItem_parse {ι V : Type} (w : World ι) (t : TypedStorage ι V)
    (k : String) (c : Conv V) (hc : findConv t.converters k = some c) :
    (w.stores t.storage (effKey t k) = none → getItem w t k = none) ∧
    (∀ raw, w.stores t.storage (effKey t k) = some raw →
      getItem w t k = c.parse raw) ∧
    (∀ raw, w.stores t.storage (effKey t k) = some raw →
      c.parse raw = none → getItem w t k = none) := by
  refine ⟨fun h => ?_, fun raw h => ?_, fun raw h hp => ?_⟩
  · rw [getItem, h]
  · rw [getItem, h, hc]
  · rw [getItem, h, hc]
    exact hp

/-- A store holding the unparseable raw string `"xyz"` under key
`"flag"`. -/
def garbageWorld : World Bool where
  stores := fun j k =>
    if j = true then (if k = "flag" then some "xyz" else none) else none
  taken := fun _ => ∅

/-- An instance with schema `{flag: boolean}` and empty prefix, bound to
store `true`. -/
def tFlag : TypedStorage Bool Bool := ⟨true, "", [("flag", booleanConverter)]⟩

theorem c4_getItem_parse_witness :
    getItem garbageWorld tFlag "flag" = none ∧
    getItem emptyWorld tFlag "flag" = none :=
  ⟨(c4_getItem_parse garbageWorld tFlag "flag" booleanConverter rfl).2.2
      "xyz" rfl rfl,
   (c4_getItem_parse emptyWorld tFlag "flag" booleanConverter rfl).1 rfl⟩

/-- C5: `hasItem` is true exactly when `getItem` is non-absent; it is
defined as literally `getItem(key) != null`, with no further store
access. -/
theorem c5_hasItem_getItem {ι V : Type} (w : World ι) (t : TypedStorage ι V)
    (k : String) : hasItem w t k = true ↔ getItem w t k ≠ none := by
  rw [hasItem, Option.isSome_iff_ne_none]

theorem setStore_stores {ι : Type} [DecidableEq ι] (w : World ι) (s : ι)
    (key : String) (v : Option String) (j : ι) (k' : String) :
    (setStore w s key v).stores j k' =
      if j = s ∧ k' = key then v else w.stores j k' := by
  simp only [setStore]
  by_cases hj : j = s
  · subst hj
    by_cases hk : k' = key
    · simp [hk]
    · simp [hk]
  · simp [hj]

theorem setStore_taken {ι : Type} [DecidableEq ι] (w : World ι) (s : ι)
    (key : String) (v : Option String) : (setStore w s key v).taken = w.taken :=
  rfl

theorem setStore_self {ι : Type} [DecidableEq ι] (w : World ι) (s : ι)
    (key : String) (v : Option String) (h : w.stores s key = v) :
    setStore w s key v = w := by
  refine world_ext ?_ rfl
  funext j
  by_cases hj : j = s
  · subst hj
    funext k
    by_cases hk : k = key
    · subst hk; simp [setStore, h]
    · simp [setStore, hk]
  · simp [setStore, hj]

theorem setItem_stores_frame {ι V : Type} [DecidableEq ι] (w : World ι)
    (t : TypedStorage ι V) (f : String) (v : V) (j : ι) (k' : String)
    (h : ¬(j = t.storage ∧ k' = effKey t f)) :
    (setItem w t f v).stores j k' = w.stores j k' := by
  rcases hfc : findConv t.converters f with _ | c
  · rw [setItem, hfc]
  · rw [setItem, hfc, setStore_stores, if_neg h]

theorem setItem_taken {ι V : Type} [DecidableEq ι] (w : World ι)
    (t : TypedStorage ι V) (f : String) (v : V) :
    (setItem w t f v).taken = w.taken := by
  rcases hfc : findConv t.converters f with _ | c
  · rw [setItem, hfc]
  · rw [setItem, hfc, setStore_taken]

/-- C9: `setItem` and `removeItem` change at most the single effective
key `prefix + f` of the instance's own backing store — every other key of
every store keeps its value — and neither touches the key registry. -/
theorem c9_frame {ι V : Type} [DecidableEq ι] (w : World ι)
    (t : TypedStorage ι V) (f : String) (v : V) (j : ι) (k' : String)
    (h : ¬(j = t.storage ∧ k' = effKey t f)) :
    (setItem w t f v).stores j k' = w.stores j k' ∧
    (removeItem w t f).stores j k' = w.stores j k' ∧
    (setItem w t f v).taken = w.taken ∧
    (removeItem w t f).taken = w.taken := by
  refine ⟨setItem_stores_frame w t f v j k' h, ?_, setItem_taken w t f v, rfl⟩
  rw [removeItem, setStore_stores, if_neg h]

/-- A store holding `"z"` under key `"y"` on store `true`. -/
def frameWorld : World Bool where
  stores := fun j k =>
    if j = true then (if k = "y" then some "z" else none) else none
  taken := fun _ => ∅

/-- An instance with prefix `"p_"` and schema `{x: boolean}` on store
`true`. -/
def tX : TypedStorage Bool Bool := ⟨true, "p_", [("x", booleanConverter)]⟩

theorem c9_frame_witness :
    (setItem frameWorld tX "x" true).stores true "y" =
      frameWorld.stores true "y" ∧
    (removeItem frameWorld tX "x").stores true "y" =
      frameWorld.stores true "y" ∧
    (setItem frameWorld tX "x" true).taken = frameWorld.taken ∧
    (removeItem frameWorld tX "x").taken = frameWorld.taken :=
  c9_frame frameWorld tX "x" true true "y" (by decide)

/-- C10: the registry is keyed by backing-store identity.  Constructing
the same prefix and field names against two distinct stores succeeds both
times: the first construction only grows the first store's claimed set,
so the second store's set is still collision-free. -/
theorem c10_per_store_registry {ι V : Type} [DecidableEq ι] (w : World ι)
    (s₁ s₂ : ι) (p : String) (sch : Schema V) (hne : s₁ ≠ s₂)
    (hnd : (effKeys p sch).Nodup)
    (h₁ : ∀ k ∈ effKeys p sch, k ∉ w.taken s₁)
    (h₂ : ∀ k ∈ effKeys p sch, k ∉ w.taken s₂) :
    (construct w s₁ p sch).2.isSome = true ∧
    (construct (construct w s₁ p sch).1 s₂ p sch).2.isSome = true := by
  have hcl₁ := claimLoop_success (w.taken s₁) (effKeys p sch) hnd h₁
  have htk : (construct w s₁ p sch).1.taken s₂ = w.taken s₂ := by
    rw [construct_taken]
    simp [Ne.symm hne]
  constructor
  · rw [construct_snd, hcl₁]
    rfl
  · rw [construct_snd, htk, claimLoop_success (w.taken s₂) (effKeys p sch)
      hnd h₂]
    rfl

theorem c10_per_store_registry_witness :
    (construct emptyWorld false "" schemaA).2.isSome = true ∧
    (construct (construct emptyWorld false "" schemaA).1 true ""
      schemaA).2.isSome = true :=
  c10_per_store_registry emptyWorld false true "" schemaA (by decide)
    (by decide) (by decide) (by decide)

/-- C8: omitting the prefix argument behaves identically to supplying the
empty-string prefix: the overloaded constructor produces the same world
and the same instance, and any instances so produced behave identically
under every operation. -/
theorem c8_no_prefix_default {ι V : Type} [DecidableEq ι] (w : World ι)
    (s : ι) (conv : Schema V) :
    constructorOverload w s (.convOnly conv) =
      constructorOverload w s (.preAndConv "" conv) ∧
    ∀ t₁ t₂ : TypedStorage ι V,
      (constructorOverload w s (.convOnly conv)).2 = some t₁ →
      (constructorOverload w s (.preAndConv "" conv)).2 = some t₂ →
      ∀ (w' : World ι) (k : String) (v : V),
        getItem w' t₁ k = getItem w' t₂ k ∧
        hasItem w' t₁ k = hasItem w' t₂ k ∧
        setItem w' t₁ k v = setItem w' t₂ k v ∧
        removeItem w' t₁ k = removeItem w' t₂ k := by
  refine ⟨rfl, fun t₁ t₂ h₁ h₂ w' k v => ?_⟩
  have ht : t₁ = t₂ := Option.some.inj (h₁.symm.trans h₂)
  subst ht
  exact ⟨rfl, rfl, rfl, rfl⟩

theorem c8_no_prefix_default_witness :
    constructorOverload emptyWorld true (CtorArgs.convOnly schemaA) =
      constructorOverload emptyWorld true (CtorArgs.preAndConv "" schemaA) ∧
    getItem emptyWorld ⟨true, "", schemaA⟩ "a" =
      getItem emptyWorld ⟨true, "", schemaA⟩ "a" :=
  ⟨(c8_no_prefix_default emptyWorld true schemaA).1,
   ((c8_no_prefix_default emptyWorld true schemaA).2 ⟨true, "", schemaA⟩
      ⟨true, "", schemaA⟩ rfl rfl emptyWorld "a" "a").1⟩

theorem getItem_congr {ι V : Type} (w w' : World ι) (t : TypedStorage ι V)
    (k : String)
    (h : w.stores t.storage (effKey t k) = w'.stores t.storage (effKey t k)) :
    getItem w t k = getItem w' t k := by
  rw [getItem, getItem, h]

theorem hasItem_congr {ι V : Type} (w w' : World ι) (t : TypedStorage ι V)
    (k : String)
    (h : w.stores t.storage (effKey t k) = w'.stores t.storage (effKey t k)) :
    hasItem w t k = hasItem w' t k := by
  rw [hasItem, hasItem, getItem_congr w w' t k h]

theorem setDefaults_cons {ι V : Type} [DecidableEq ι] (w : World ι)
    (t : TypedStorage ι V) (p : String × V) (rest : List (String × V)) :
    setDefaults w t (p :: rest) =
      setDefaults (if hasItem w t p.1 then w else setItem w t p.1 p.2) t
        rest :=
  rfl

theorem setDefaults_cons_mk {ι V : Type} [DecidableEq ι] (w : World ι)
    (t : TypedStorage ι V) (a : String) (b : V) (rest : List (String × V)) :
    setDefaults w t ((a, b) :: rest) =
      setDefaults (if hasItem w t a then w else setItem w t a b) t rest :=
  rfl

theorem setDefaults_stores_frame {ι V : Type} [DecidableEq ι]
    (defaults : List (String × V)) (w : World ι) (t : TypedStorage ι V)
    (j : ι) (k' : String)
    (h : ∀ p ∈ defaults, ¬(j = t.storage ∧ k' = effKey t p.1)) :
    (setDefaults w t defaults).stores j k' = w.stores j k' := by
  induction defaults generalizing w with
  | nil => rfl
  | cons p rest ih =>
    rw [setDefaults_cons,
      ih _ (fun q hq => h q (List.mem_cons_of_mem p hq))]
    by_cases hh : hasItem w t p.1
    · rw [if_pos hh]
    · rw [if_neg hh]
      exact setItem_stores_frame w t p.1 p.2 j k'
        (h p (List.mem_cons_self p rest))

theorem setDefaults_stores_mem {ι V : Type} [DecidableEq ι]
    (defaults : List (String × V)) (w : World ι) (t : TypedStorage ι V)
    (k : String) (v : V) (c : Conv V)
    (hnd : (defaults.map Prod.fst).Nodup) (hmem : (k, v) ∈ defaults)
    (hc : findConv t.converters k = some c) :
    (setDefaults w t defaults).stores t.storage (effKey t k) =
      if hasItem w t k then w.stores t.storage (effKey t k)
      else some (c.stringify v) := by
  induction defaults generalizing w with
  | nil => cases hmem
  | cons p rest ih =>
    obtain ⟨pk, pv⟩ := p
    rw [List.map_cons, List.nodup_cons] at hnd
    rw [setDefaults_cons_mk]
    rcases List.mem_cons.mp hmem with he | hmem'
    · injection he with h1 h2
      subst h1
      subst h2
      have hrest : ∀ q ∈ rest,
          ¬(t.storage = t.storage ∧ effKey t k = effKey t q.1) := by
        rintro q hq ⟨_, hek⟩
        apply hnd.1
        rw [effKey_inj t hek]
        exact List.mem_map.mpr ⟨q, hq, rfl⟩
      rw [setDefaults_stores_frame rest _ t _ _ hrest]
      by_cases hh : hasItem w t k = true
      · rw [if_pos hh, if_pos hh]
      · rw [if_neg hh, if_neg hh]
        simp only [setItem, hc]
        rw [setStore_stores]
        simp
    · have hne : pk ≠ k := by
        intro he
        apply hnd.1
        rw [he]
        exact List.mem_map.mpr ⟨(k, v), hmem', rfl⟩
      have hframe :
          (if hasItem w t pk then w
            else setItem w t pk pv).stores t.storage (effKey t k) =
          w.stores t.storage (effKey t k) := by
        by_cases hh : hasItem w t pk = true
        · rw [if_pos hh]
        · rw [if_neg hh]
          exact setItem_stores_frame w t pk pv t.storage (effKey t k)
            (fun hand => hne (effKey_inj t hand.2).symm)
      rw [ih _ hnd.2 hmem',
        hasItem_congr _ w t k hframe, hframe]

/-- C6: `setDefaults` writes a field exactly when `hasItem` is false for
it (the supplied keys being distinct, a field's `hasItem` at visit time
equals its `hasItem` before the call), storing the converter's stringify
of the supplied default, and leaves already-set fields and all unrelated
keys untouched. -/
theorem c6_setDefaults_writes_unset {ι V : Type} [DecidableEq ι]
    (defaults : List (String × V)) (w : World ι) (t : TypedStorage ι V)
    (hnd : (defaults.map Prod.fst).Nodup) :
    (∀ k v c, (k, v) ∈ defaults → findConv t.converters k = some c →
      (setDefaults w t defaults).stores t.storage (effKey t k) =
        if hasItem w t k then w.stores t.storage (effKey t k)
        else some (c.stringify v)) ∧
    (∀ j k', (∀ p ∈ defaults, ¬(j = t.storage ∧ k' = effKey t p.1)) →
      (setDefaults w t defaults).stores j k' = w.stores j k') :=
  ⟨fun k v c hmem hc => setDefaults_stores_mem defaults w t k v c hnd hmem hc,
   fun j k' h => setDefaults_stores_frame defaults w t j k' h⟩

theorem c6_setDefaults_writes_unset_witness :
    (setDefaults emptyWorld tFlag [("flag", false)]).stores tFlag.storage
      (effKey tFlag "flag") = some "0" ∧
    (setDefaults (setDefaults emptyWorld tFlag [("flag", false)]) tFlag
      [("flag", true)]).stores tFlag.storage (effKey tFlag "flag") =
      some "0" := by
  have h1 := (c6_setDefaults_writes_unset [("flag", false)] emptyWorld tFlag
    (by decide)).1 "flag" false booleanConverter (by decide) rfl
  have e1 : (setDefaults emptyWorld tFlag [("flag", false)]).stores
      tFlag.storage (effKey tFlag "flag") = some "0" := by
    rw [h1]
    decide
  have h2 := (c6_setDefaults_writes_unset [("flag", true)]
    (setDefaults emptyWorld tFlag [("flag", false)]) tFlag
    (by decide)).1 "flag" true booleanConverter (by decide) rfl
  refine ⟨e1, ?_⟩
  rw [h2, if_pos (by decide)]
  exact e1

theorem setDefaults_noop {ι V : Type} [DecidableEq ι]
    (defaults : List (String × V)) (w : World ι) (t : TypedStorage ι V)
    (h : ∀ p ∈ defaults, hasItem w t p.1 = true ∨
      ∃ c, findConv t.converters p.1 = some c ∧
        w.stores t.storage (effKey t p.1) = some (c.stringify p.2)) :
    setDefaults w t defaults = w := by
  induction defaults generalizing w with
  | nil => rfl
  | cons p rest ih =>
    rw [setDefaults_cons]
    have hstep : (if hasItem w t p.1 then w else setItem w t p.1 p.2) = w := by
      rcases h p (List.mem_cons_self p rest) with hh | ⟨c, hc, hs⟩
      · rw [if_pos hh]
      · by_cases hh : hasItem w t p.1
        · rw [if_pos hh]
        · rw [if_neg hh, setItem, hc]
          exact setStore_self w t.storage (effKey t p.1) _ hs
    rw [hstep]
    exact ih w (fun q hq => h q (List.mem_cons_of_mem p hq))

/-- C7: running `setDefaults` twice in succession with the same defaults
leaves the store exactly as one run does: after the first run every field
of the defaults either already parses (`hasItem` true, so the second run
skips it) or holds precisely the stringified default, which a second
write would rewrite unchanged. -/
theorem c7_setDefaults_idempotent {ι V : Type} [DecidableEq ι]
    (defaults : List (String × V)) (w : World ι) (t : TypedStorage ι V)
    (hnd : (defaults.map Prod.fst).Nodup)
    (hc : ∀ p ∈ defaults, ∃ c, findConv t.converters p.1 = some c) :
    setDefaults (setDefaults w t defaults) t defaults =
      setDefaults w t defaults := by
  apply setDefaults_noop
  intro p hp
  rcases hc p hp with ⟨c, hcp⟩
  have hmem : (p.1, p.2) ∈ defaults := by
    rw [Prod.mk.eta]
    exact hp
  have hchar := setDefaults_stores_mem defaults w t p.1 p.2 c hnd hmem hcp
  by_cases hh : hasItem w t p.1
  · left
    rw [hasItem_congr _ w t p.1 (by rw [hchar, if_pos hh])]
    exact hh
  · right
    exact ⟨c, hcp, by rw [hchar, if_neg hh]⟩

theorem c7_setDefaults_idempotent_witness :
    setDefaults (setDefaults emptyWorld tFlag [("flag", false)]) tFlag
      [("flag", false)] = setDefaults emptyWorld tFlag [("flag", false)] :=
  c7_setDefaults_idempotent [("flag", false)] emptyWorld tFlag (by decide)
    (fun p hp => ⟨booleanConverter, by
      rcases List.mem_singleton.mp hp with rfl
      rfl⟩)


/-!
### The host's number type and its string conversions

`intConverter`, `floatConverter` and `isoDateConverter` delegate to host
primitives (`Number.prototype.toString`, `parseInt`, `parseFloat`,
`Date`).  These are modelled from the ECMAScript specification.  The
number type is idealized: a finite double is identified with the exact
rational value denoted by its shortest decimal representation (every
double is a binary, hence decimal-representable, rational), so string
formatting and parsing are exact.  This captures the ECMAScript
formatting/parsing algorithms precisely; it abstracts from binary
rounding, which none of the operations used here perform.
-/

def digitVal (c : Char) : ℕ := c.toNat - 48
def digitsVal (l : List Char) : ℕ := l.foldl (fun a c => 10 * a + digitVal c) 0

def natDigitsAux : ℕ → ℕ → List Char
  | 0, _ => []
  | fuel+1, n =>
    if n = 0 then []
    else natDigitsAux fuel (n / 10) ++ [Nat.digitChar (n % 10)]

def natDigits (n : ℕ) : List Char := natDigitsAux n n

inductive JSNumber : Type
  | nan
  | inf
  | negInf
  | finite (q : ℚ)
deriving DecidableEq

def stripZeros : ℕ → ℕ → ℕ × ℕ
  | n, 0 => (n, 0)
  | n, fuel+1 =>
    if n % 10 = 0 ∧ n ≠ 0 then
      let p := stripZeros (n / 10) fuel
      (p.1, p.2 + 1)
    else (n, 0)

/-- exponent large enough that a decimal-denominator `q.den` divides
`10 ^ decExp q`: any denominator of the form `2^a * 5^b` satisfies
`a, b < 4 * digits(den)` since `2^a ≤ den < 10^digits ≤ 16^digits`. -/
def decExp (q : ℚ) : ℕ := 4 * (natDigits q.den).length

def IsDec (q : ℚ) : Prop := q.den ∣ 10 ^ decExp q

instance (q : ℚ) : Decidable (IsDec q) := Nat.decidable_dvd _ _

def decSig (q : ℚ) : ℕ × ℤ :=
  let d := decExp q
  let m := q.num.natAbs * 10 ^ d / q.den
  let p := stripZeros m m
  (p.1, (p.2 : ℤ) - d + (natDigits p.1).length)

def fmtDigits (s : ℕ) (n : ℤ) : List Char :=
  let ds := natDigits s
  let k : ℤ := (ds.length : ℤ)
  if k ≤ n ∧ n ≤ 21 then ds ++ List.replicate (n - k).toNat '0'
  else if 0 < n ∧ n ≤ 21 then ds.take n.toNat ++ '.' :: ds.drop n.toNat
  else if -6 < n ∧ n ≤ 0 then '0' :: '.' :: (List.replicate (-n).toNat '0' ++ ds)
  else
    let ex := natDigits (n - 1).natAbs
    let sgn := if n - 1 < 0 then '-' else '+'
    match ds with
    | [d] => d :: 'e' :: sgn :: ex
    | d :: rest => d :: '.' :: (rest ++ 'e' :: sgn :: ex)
    | [] => ['0']

def jsNumToString : JSNumber → String
  | .nan => "NaN"
  | .inf => "Infinity"
  | .negInf => "-Infinity"
  | .finite q =>
    if q.num = 0 then "0"
    else if q.num < 0 then String.mk ('-' :: fmtDigits (decSig q).1 (decSig q).2)
    else String.mk (fmtDigits (decSig q).1 (decSig q).2)

def splitSign (l : List Char) : Bool × List Char :=
  match l with
  | c :: r => if c = '-' then (true, r) else if c = '+' then (false, r) else (false, l)
  | [] => (false, l)

def decValue (m : ℕ) (e : ℤ) : ℚ :=
  if 0 ≤ e then Rat.divInt (m * 10 ^ e.toNat) 1 else Rat.divInt m (10 ^ (-e).toNat)

def ratNeg (q : ℚ) : ℚ := Rat.divInt (-q.num) q.den

def expDigitsVal (l : List Char) : Option ℤ :=
  if l.takeWhile Char.isDigit = [] then none
  else some ((digitsVal (l.takeWhile Char.isDigit) : ℤ))

def parseExpTail (l : List Char) : Option ℤ :=
  match l with
  | c :: r =>
    if c = '+' then expDigitsVal r
    else if c = '-' then (expDigitsVal r).map (fun z => -z)
    else expDigitsVal l
  | [] => none

def parseExpOpt (l : List Char) : ℤ :=
  match l with
  | c :: r => if c = 'e' ∨ c = 'E' then (parseExpTail r).getD 0 else 0
  | [] => 0

/-- split an optional fraction part `.ddd` off the remainder: returns the
fraction digits and what follows them. -/
def fracSplit (r1 : List Char) : List Char × List Char :=
  match r1 with
  | c :: r =>
    if c = '.' then (r.takeWhile Char.isDigit, r.dropWhile Char.isDigit)
    else ([], r1)
  | [] => ([], r1)

def parseUnsigned (l : List Char) : Option ℚ :=
  let ip := l.takeWhile Char.isDigit
  let fr := fracSplit (l.dropWhile Char.isDigit)
  if ip = [] ∧ fr.1 = [] then none
  else some (decValue (digitsVal ip * 10 ^ fr.1.length + digitsVal fr.1)
    (parseExpOpt fr.2 - fr.1.length))

def jsParseFloat (str : String) : JSNumber :=
  let l := str.data.dropWhile Char.isWhitespace
  let s := splitSign l
  if "Infinity".data.isPrefixOf s.2 then (if s.1 then .negInf else .inf)
  else
    match parseUnsigned s.2 with
    | none => .nan
    | some q => .finite (if s.1 then ratNeg q else q)

def jsParseInt (str : String) : JSNumber :=
  let l := str.data.dropWhile Char.isWhitespace
  let s := splitSign l
  let ds := s.2.takeWhile Char.isDigit
  if ds = [] then .nan
  else .finite (if s.1 then ratNeg (decValue (digitsVal ds) 0) else decValue (digitsVal ds) 0)

-- sanity checks

-- ===== proof layer =====

theorem digitsVal_foldl (a : ℕ) (l : List Char) :
    l.foldl (fun a c => 10 * a + digitVal c) a = a * 10 ^ l.length + digitsVal l := by
  induction l generalizing a with
  | nil => simp [digitsVal]
  | cons c r ih =>
    have h2 : digitsVal (c :: r) = digitVal c * 10 ^ r.length + digitsVal r := by
      rw [digitsVal, List.foldl_cons, ih]
      simp
    rw [List.foldl_cons, ih, h2, List.length_cons]
    ring

theorem digitsVal_append (l₁ l₂ : List Char) :
    digitsVal (l₁ ++ l₂) = digitsVal l₁ * 10 ^ l₂.length + digitsVal l₂ := by
  rw [digitsVal, List.foldl_append, digitsVal_foldl]
  rfl

theorem digitsVal_replicate_zero (z : ℕ) : digitsVal (List.replicate z '0') = 0 := by
  induction z with
  | zero => rfl
  | succ n ih =>
    rw [List.replicate_succ, digitsVal, List.foldl_cons, digitsVal_foldl]
    have h0 : digitVal '0' = 0 := rfl
    simpa [h0] using ih

theorem digitChar_facts : ∀ d < 10, digitVal (Nat.digitChar d) = d ∧
    (Nat.digitChar d).isDigit = true := by decide

theorem natDigitsAux_zero (fuel : ℕ) : natDigitsAux fuel 0 = [] := by
  cases fuel <;> rfl

theorem natDigitsAux_spec (fuel : ℕ) : ∀ n, n ≤ fuel → 0 < n →
    digitsVal (natDigitsAux fuel n) = n ∧
    (∀ c ∈ natDigitsAux fuel n, c.isDigit = true) ∧
    10 ^ ((natDigitsAux fuel n).length - 1) ≤ n ∧
    n < 10 ^ (natDigitsAux fuel n).length := by
  induction fuel with
  | zero => intro n h1 h2; omega
  | succ fuel ih =>
    intro n h1 h2
    rw [natDigitsAux, if_neg (by omega)]
    have hd10 : n % 10 < 10 := Nat.mod_lt _ (by norm_num)
    have hdv : digitVal (Nat.digitChar (n % 10)) = n % 10 := (digitChar_facts _ hd10).1
    have hdig : (Nat.digitChar (n % 10)).isDigit = true := (digitChar_facts _ hd10).2
    by_cases hn : n < 10
    · have h0 : n / 10 = 0 := by omega
      rw [h0, natDigitsAux_zero]
      refine ⟨?_, ?_, ?_, ?_⟩
      · simp [digitsVal, digitsVal_foldl, hdv]
        omega
      · intro c hc
        simp at hc
        rw [hc]
        exact hdig
      · simpa using h2
      · simpa using hn
    · have hq1 : 0 < n / 10 := by omega
      have hqf : n / 10 ≤ fuel := by omega
      obtain ⟨hv, hall, hlo, hhi⟩ := ih (n / 10) hqf hq1
      have hlen : 0 < (natDigitsAux fuel (n / 10)).length := by
        by_contra hl
        simp at hl
        rw [hl] at hv
        simp [digitsVal] at hv
        omega
      refine ⟨?_, ?_, ?_, ?_⟩
      · rw [digitsVal_append, hv]
        simp [digitsVal, digitsVal_foldl, hdv]
        omega
      · intro c hc
        rcases List.mem_append.mp hc with hc | hc
        · exact hall c hc
        · simp at hc; rw [hc]; exact hdig
      · rw [List.length_append]
        simp only [List.length_singleton]
        have he : 10 ^ ((natDigitsAux fuel (n / 10)).length + 1 - 1) =
            10 ^ ((natDigitsAux fuel (n/10)).length - 1) * 10 := by
          rw [Nat.add_sub_cancel, ← pow_succ]
          congr 1
          omega
        rw [he]
        nlinarith [Nat.div_add_mod n 10]
      · rw [List.length_append]
        simp only [List.length_singleton, pow_succ]
        nlinarith [Nat.div_add_mod n 10]

theorem natDigits_val {n : ℕ} (h : 0 < n) : digitsVal (natDigits n) = n :=
  (natDigitsAux_spec n n le_rfl h).1

theorem natDigits_digits {n : ℕ} (c : Char) (hc : c ∈ natDigits n) :
    c.isDigit = true := by
  rcases Nat.eq_zero_or_pos n with rfl | h
  · cases hc
  · exact (natDigitsAux_spec n n le_rfl h).2.1 c hc

theorem natDigits_lb {n : ℕ} (h : 0 < n) :
    10 ^ ((natDigits n).length - 1) ≤ n :=
  (natDigitsAux_spec n n le_rfl h).2.2.1

theorem natDigits_ub {n : ℕ} (h : 0 < n) : n < 10 ^ (natDigits n).length :=
  (natDigitsAux_spec n n le_rfl h).2.2.2

theorem natDigits_ne_nil {n : ℕ} (h : 0 < n) : natDigits n ≠ [] := by
  intro hl
  have := natDigits_val h
  rw [hl] at this
  simp [digitsVal] at this
  omega

theorem stripZeros_spec : ∀ (fuel n : ℕ), 0 < n → n ≤ fuel →
    (stripZeros n fuel).1 * 10 ^ (stripZeros n fuel).2 = n ∧
    ¬ 10 ∣ (stripZeros n fuel).1 ∧ 0 < (stripZeros n fuel).1 := by
  intro fuel
  induction fuel with
  | zero => intro n h1 h2; omega
  | succ fuel ih =>
    intro n h1 h2
    by_cases hc : n % 10 = 0 ∧ n ≠ 0
    · rw [stripZeros, if_pos hc]
      have hq1 : 0 < n / 10 := by omega
      have hqf : n / 10 ≤ fuel := by omega
      obtain ⟨hv, hnd, hp⟩ := ih (n / 10) hq1 hqf
      refine ⟨?_, hnd, hp⟩
      simp only []
      rw [pow_succ, ← Nat.mul_assoc, hv]
      omega
    · rw [stripZeros, if_neg hc]
      have hnm : n % 10 ≠ 0 := fun h => hc ⟨h, by omega⟩
      have hnd : ¬ 10 ∣ n := fun hd => hnm (by obtain ⟨c, rfl⟩ := hd; omega)
      exact ⟨by simp, hnd, h1⟩

theorem decSig_spec (q : ℚ) (hd : IsDec q) (hq : q.num ≠ 0) :
    0 < (decSig q).1 ∧ ¬ 10 ∣ (decSig q).1 ∧
    ((decSig q).1 : ℚ) *
      (10 : ℚ) ^ ((decSig q).2 - ((natDigits (decSig q).1).length : ℤ)) =
      (q.num.natAbs : ℚ) / (q.den : ℚ) := by
  rw [IsDec] at hd
  have hden : 0 < q.den := q.den_pos
  have hm : (q.num.natAbs * 10 ^ decExp q / q.den) * q.den =
      q.num.natAbs * 10 ^ decExp q :=
    Nat.div_mul_cancel (Dvd.dvd.mul_left hd _)
  have hm0 : 0 < q.num.natAbs * 10 ^ decExp q / q.den := by
    have h1 : q.den ≤ 10 ^ decExp q := Nat.le_of_dvd (by positivity) hd
    have h2 : 1 ≤ q.num.natAbs := by
      have := Int.natAbs_pos.mpr hq
      omega
    have h3 : q.den ≤ q.num.natAbs * 10 ^ decExp q := by nlinarith
    have h4 := Nat.div_le_div_right (c := q.den) h3
    rw [Nat.div_self hden] at h4
    omega
  obtain ⟨hv, hnd, hp⟩ := stripZeros_spec _ _ hm0 le_rfl
  rcases hst : stripZeros (q.num.natAbs * 10 ^ decExp q / q.den)
      (q.num.natAbs * 10 ^ decExp q / q.den) with ⟨r, t⟩
  rw [hst] at hv hnd hp
  simp only [] at hv hnd hp
  have hds : decSig q = (r, (t : ℤ) - decExp q + (natDigits r).length) := by
    rw [decSig]
    simp only [hst]
  rw [hds]
  simp only []
  refine ⟨hp, hnd, ?_⟩
  have hexp : ((t : ℤ) - decExp q + (natDigits r).length) -
      ((natDigits r).length : ℤ) = (t : ℤ) - decExp q := by ring
  rw [hexp, zpow_sub₀ (by norm_num : (10:ℚ) ≠ 0), zpow_natCast, zpow_natCast]
  have hcomb : r * 10 ^ t * q.den = q.num.natAbs * 10 ^ decExp q := by
    rw [hv]
    exact hm
  have hcombq : (r : ℚ) * 10 ^ t * q.den = (q.num.natAbs : ℚ) * 10 ^ decExp q := by
    exact_mod_cast congrArg (fun x : ℕ => (x : ℚ)) hcomb
  field_simp
  linarith [hcombq]

theorem digit_ne_minus {c : Char} (h : c.isDigit = true) : c ≠ '-' := by
  intro h2
  rw [h2] at h
  exact absurd h (by decide)

theorem digit_ne_plus {c : Char} (h : c.isDigit = true) : c ≠ '+' := by
  intro h2
  rw [h2] at h
  exact absurd h (by decide)

theorem digit_ne_dot {c : Char} (h : c.isDigit = true) : c ≠ '.' := by
  intro h2
  rw [h2] at h
  exact absurd h (by decide)

theorem digit_ne_e {c : Char} (h : c.isDigit = true) : c ≠ 'e' ∧ c ≠ 'E' := by
  constructor <;> intro h2 <;> rw [h2] at h <;> exact absurd h (by decide)

theorem digit_not_ws {c : Char} (h : c.isDigit = true) :
    c.isWhitespace = false := by
  by_contra hw
  simp only [Bool.not_eq_false] at hw
  simp only [Char.isWhitespace, Bool.or_eq_true, decide_eq_true_eq] at hw
  rcases hw with ((hw | hw) | hw) | hw <;> (rw [hw] at h; exact absurd h (by decide))

theorem beq_I_of_digit {c : Char} (h : c.isDigit = true) :
    ('I' == c) = false := by
  by_cases hc : 'I' = c
  · rw [← hc] at h
    exact absurd h (by decide)
  · exact beq_eq_false_iff_ne.mpr hc

theorem takeWhile_append_all {p : Char → Bool} {ds : List Char}
    (rest : List Char) (h : ∀ c ∈ ds, p c = true) :
    (ds ++ rest).takeWhile p = ds ++ rest.takeWhile p := by
  induction ds with
  | nil => simp
  | cons c r ih =>
    rw [List.cons_append, List.takeWhile_cons_of_pos (h c (List.mem_cons_self _ _)),
      ih (fun x hx => h x (List.mem_cons_of_mem _ hx)), List.cons_append]

theorem dropWhile_append_all {p : Char → Bool} {ds : List Char}
    (rest : List Char) (h : ∀ c ∈ ds, p c = true) :
    (ds ++ rest).dropWhile p = rest.dropWhile p := by
  induction ds with
  | nil => simp
  | cons c r ih =>
    rw [List.cons_append, List.dropWhile_cons_of_pos (h c (List.mem_cons_self _ _)),
      ih (fun x hx => h x (List.mem_cons_of_mem _ hx))]

theorem takeWhile_all {p : Char → Bool} {ds : List Char}
    (h : ∀ c ∈ ds, p c = true) : ds.takeWhile p = ds :=
  List.takeWhile_eq_self_iff.mpr h

theorem dropWhile_all {p : Char → Bool} {ds : List Char}
    (h : ∀ c ∈ ds, p c = true) : ds.dropWhile p = [] :=
  List.dropWhile_eq_nil_iff.mpr h

theorem decValue_eq (m : ℕ) (e : ℤ) : decValue m e = (m : ℚ) * (10 : ℚ) ^ e := by
  rw [decValue]
  by_cases he : 0 ≤ e
  · rw [if_pos he, Rat.divInt_eq_div]
    conv_rhs => rw [show e = (e.toNat : ℤ) by omega, zpow_natCast]
    push_cast
    ring
  · rw [if_neg he, Rat.divInt_eq_div]
    conv_rhs => rw [show e = -((-e).toNat : ℤ) by omega, zpow_neg, zpow_natCast]
    push_cast
    rw [div_eq_mul_inv]

theorem ratNeg_eq (q : ℚ) : ratNeg q = -q := by
  rw [ratNeg, Rat.divInt_eq_div]
  push_cast
  rw [neg_div, Rat.num_div_den]

theorem fracSplit_nil : fracSplit [] = ([], []) := rfl

theorem fracSplit_dot (r : List Char) :
    fracSplit ('.' :: r) = (r.takeWhile Char.isDigit, r.dropWhile Char.isDigit) := by
  rw [fracSplit, if_pos rfl]

theorem fracSplit_other {c : Char} (r : List Char) (hc : c ≠ '.') :
    fracSplit (c :: r) = ([], c :: r) := by
  rw [fracSplit, if_neg hc]

theorem expDigitsVal_all {ex : List Char} (hex : ∀ c ∈ ex, c.isDigit = true)
    (hne : ex ≠ []) : expDigitsVal ex = some ((digitsVal ex : ℤ)) := by
  rw [expDigitsVal, takeWhile_all hex, if_neg hne]

theorem parseExpOpt_plus {ex : List Char} (hex : ∀ c ∈ ex, c.isDigit = true)
    (hne : ex ≠ []) : parseExpOpt ('e' :: '+' :: ex) = (digitsVal ex : ℤ) := by
  rw [parseExpOpt, if_pos (Or.inl rfl), parseExpTail, if_pos rfl,
    expDigitsVal_all hex hne]
  rfl

theorem parseExpOpt_minus {ex : List Char} (hex : ∀ c ∈ ex, c.isDigit = true)
    (hne : ex ≠ []) : parseExpOpt ('e' :: '-' :: ex) = -(digitsVal ex : ℤ) := by
  rw [parseExpOpt, if_pos (Or.inl rfl), parseExpTail, if_neg (by decide),
    if_pos rfl, expDigitsVal_all hex hne]
  rfl

theorem parseUnsigned_fmt (s : ℕ) (n : ℤ) (hs : 0 < s) :
    parseUnsigned (fmtDigits s n) =
      some ((s : ℚ) * (10 : ℚ) ^ (n - ((natDigits s).length : ℤ))) := by
  have hds : ∀ c ∈ natDigits s, c.isDigit = true :=
    fun c hc => natDigits_digits c hc
  have hne := natDigits_ne_nil hs
  simp only [fmtDigits]
  by_cases hb1 : ((natDigits s).length : ℤ) ≤ n ∧ n ≤ 21
  · rw [if_pos hb1]
    have hall : ∀ c ∈ natDigits s ++
        List.replicate (n - ((natDigits s).length : ℤ)).toNat '0',
        c.isDigit = true := by
      intro c hc
      rcases List.mem_append.mp hc with hc | hc
      · exact hds c hc
      · rw [List.eq_of_mem_replicate hc]
        decide
    have hnenil : natDigits s ++
        List.replicate (n - ((natDigits s).length : ℤ)).toNat '0' ≠ [] := by
      intro h
      exact hne (List.append_eq_nil.mp h).1
    simp only [parseUnsigned, takeWhile_all hall, dropWhile_all hall,
      fracSplit_nil]
    rw [if_neg (fun h => hnenil (And.left h))]
    congr 1
    rw [digitsVal_append, natDigits_val hs, digitsVal_replicate_zero,
      List.length_replicate]
    have h0 : digitsVal ([] : List Char) = 0 := rfl
    have hexp0 : parseExpOpt ([] : List Char) - (([] : List Char).length : ℤ) = 0 := by decide
    rw [h0, hexp0]
    simp only [List.length_nil, pow_zero, mul_one, Nat.add_zero]
    rw [decValue_eq, zpow_zero, mul_one]
    conv_rhs => rw [show n - ((natDigits s).length : ℤ) =
      (((n - ((natDigits s).length : ℤ)).toNat : ℕ) : ℤ) from by omega, zpow_natCast]
    push_cast
    ring
  · rw [if_neg hb1]
    by_cases hb2 : 0 < n ∧ n ≤ 21
    · rw [if_pos hb2]
      have hnk : n < ((natDigits s).length : ℤ) := by
        by_contra hkn
        exact hb1 ⟨by omega, hb2.2⟩
      have hk1 : 0 < (natDigits s).length := List.length_pos.mpr hne
      have hnt1 : 1 ≤ n.toNat := by omega
      have htd : ∀ c ∈ (natDigits s).take n.toNat, c.isDigit = true :=
        fun c hc => hds c (List.take_subset _ _ hc)
      have hdd : ∀ c ∈ (natDigits s).drop n.toNat, c.isDigit = true :=
        fun c hc => hds c (List.drop_subset _ _ hc)
      have hip : ((natDigits s).take n.toNat ++
          '.' :: (natDigits s).drop n.toNat).takeWhile Char.isDigit =
          (natDigits s).take n.toNat := by
        rw [takeWhile_append_all _ htd, List.takeWhile_cons_of_neg (by decide),
          List.append_nil]
      have hr1 : ((natDigits s).take n.toNat ++
          '.' :: (natDigits s).drop n.toNat).dropWhile Char.isDigit =
          '.' :: (natDigits s).drop n.toNat := by
        rw [dropWhile_append_all _ htd, List.dropWhile_cons_of_neg (by decide)]
      have hipne : (natDigits s).take n.toNat ≠ [] := by
        intro h
        have h2 := congrArg List.length h
        rw [List.length_take, List.length_nil] at h2
        omega
      simp only [parseUnsigned, hip, hr1, fracSplit_dot, takeWhile_all hdd,
        dropWhile_all hdd]
      rw [if_neg (fun h => hipne (And.left h))]
      congr 1
      have hM : digitsVal ((natDigits s).take n.toNat) *
          10 ^ ((natDigits s).drop n.toNat).length +
          digitsVal ((natDigits s).drop n.toNat) = s := by
        rw [← digitsVal_append, List.take_append_drop, natDigits_val hs]
      rw [hM, decValue_eq]
      rw [show parseExpOpt ([] : List Char) -
          ((((natDigits s).drop n.toNat).length : ℕ) : ℤ) =
          n - ((natDigits s).length : ℤ) from by
        rw [show parseExpOpt ([] : List Char) = 0 from rfl, List.length_drop]
        have hle : n.toNat ≤ (natDigits s).length := by omega
        rw [Nat.cast_sub hle]
        have hnn : ((n.toNat : ℕ) : ℤ) = n := by omega
        rw [hnn]
        ring]
    · rw [if_neg hb2]
      by_cases hb3 : -6 < n ∧ n ≤ 0
      · rw [if_pos hb3]
        have hall : ∀ c ∈ List.replicate (-n).toNat '0' ++ natDigits s,
            c.isDigit = true := by
          intro c hc
          rcases List.mem_append.mp hc with hc | hc
          · rw [List.eq_of_mem_replicate hc]
            decide
          · exact hds c hc
        have hip : (('0' :: '.' ::
            (List.replicate (-n).toNat '0' ++ natDigits s)).takeWhile
            Char.isDigit) = ['0'] := by
          rw [List.takeWhile_cons_of_pos (by decide),
            List.takeWhile_cons_of_neg (by decide)]
        have hr1 : (('0' :: '.' ::
            (List.replicate (-n).toNat '0' ++ natDigits s)).dropWhile
            Char.isDigit) = '.' :: (List.replicate (-n).toNat '0' ++ natDigits s) := by
          rw [List.dropWhile_cons_of_pos (by decide),
            List.dropWhile_cons_of_neg (by decide)]
        simp only [parseUnsigned, hip, hr1, fracSplit_dot,
          takeWhile_all hall, dropWhile_all hall]
        rw [if_neg (by intro h; exact absurd h.1 (by decide))]
        congr 1
        have hM : digitsVal ['0'] *
            10 ^ (List.replicate (-n).toNat '0' ++ natDigits s).length +
            digitsVal (List.replicate (-n).toNat '0' ++ natDigits s) = s := by
          rw [digitsVal_append, digitsVal_replicate_zero, natDigits_val hs]
          rw [show digitsVal ['0'] = 0 from rfl]
          ring
        rw [hM, decValue_eq]
        rw [show parseExpOpt ([] : List Char) -
            (((List.replicate (-n).toNat '0' ++ natDigits s).length : ℕ) : ℤ) =
            n - ((natDigits s).length : ℤ) from by
          rw [show parseExpOpt ([] : List Char) = 0 from rfl,
            List.length_append, List.length_replicate]
          omega]
      · rw [if_neg hb3]
        have hrange : n ≤ -6 ∨ 21 < n := by
          by_cases h21 : n ≤ 21
          · left
            have h0 : ¬ 0 < n := fun h => hb2 ⟨h, h21⟩
            omega
          · right
            omega
        have hexpos : 0 < (n - 1).natAbs := by omega
        have hexd : ∀ c ∈ natDigits (n - 1).natAbs, c.isDigit = true :=
          fun c hc => natDigits_digits c hc
        have hexne := natDigits_ne_nil hexpos
        have hexval : digitsVal (natDigits (n - 1).natAbs) = (n - 1).natAbs :=
          natDigits_val hexpos
        have hexp : parseExpOpt ('e' ::
            (if n - 1 < 0 then '-' else '+') :: natDigits (n - 1).natAbs) =
            n - 1 := by
          by_cases hsg : n - 1 < 0
          · rw [if_pos hsg, parseExpOpt_minus hexd hexne, hexval]
            omega
          · rw [if_neg hsg, parseExpOpt_plus hexd hexne, hexval]
            omega
        rcases hsh : natDigits s with _ | ⟨d, rest⟩
        · exact absurd hsh hne
        · have hd : d.isDigit = true := by
            apply hds
            rw [hsh]
            exact List.mem_cons_self _ _
          have hrd : ∀ c ∈ rest, c.isDigit = true := by
            intro c hc
            apply hds
            rw [hsh]
            exact List.mem_cons_of_mem _ hc
          cases rest with
          | nil =>
            simp only []
            have hip : ((d :: 'e' ::
                (if n - 1 < 0 then '-' else '+') ::
                natDigits (n - 1).natAbs).takeWhile Char.isDigit) = [d] := by
              rw [List.takeWhile_cons_of_pos hd,
                List.takeWhile_cons_of_neg (by decide)]
            have hr1 : ((d :: 'e' ::
                (if n - 1 < 0 then '-' else '+') ::
                natDigits (n - 1).natAbs).dropWhile Char.isDigit) =
                'e' :: (if n - 1 < 0 then '-' else '+') ::
                natDigits (n - 1).natAbs := by
              rw [List.dropWhile_cons_of_pos hd,
                List.dropWhile_cons_of_neg (by decide)]
            have hfs : fracSplit ('e' :: (if n - 1 < 0 then '-' else '+') ::
                natDigits (n - 1).natAbs) =
                ([], 'e' :: (if n - 1 < 0 then '-' else '+') ::
                natDigits (n - 1).natAbs) :=
              fracSplit_other _ (by decide)
            simp only [parseUnsigned, hip, hr1, hfs]
            rw [if_neg (by intro h; exact absurd h.1 (by simp))]
            congr 1
            have hM : digitsVal [d] = s := by
              have h3 := natDigits_val hs
              rw [hsh] at h3
              exact h3
            have h0 : digitsVal ([] : List Char) = 0 := rfl
            rw [h0]
            simp only [List.length_nil, pow_zero, mul_one, Nat.add_zero,
              Nat.cast_zero, sub_zero, List.length_cons]
            rw [hM, hexp, decValue_eq]
            norm_num
          | cons r' rs =>
            simp only []
            have hip : ((d :: '.' ::
                ((r' :: rs) ++ 'e' :: (if n - 1 < 0 then '-' else '+') ::
                natDigits (n - 1).natAbs)).takeWhile Char.isDigit) = [d] := by
              rw [List.takeWhile_cons_of_pos hd,
                List.takeWhile_cons_of_neg (by decide)]
            have hr1 : ((d :: '.' ::
                ((r' :: rs) ++ 'e' :: (if n - 1 < 0 then '-' else '+') ::
                natDigits (n - 1).natAbs)).dropWhile Char.isDigit) =
                '.' :: ((r' :: rs) ++ 'e' ::
                (if n - 1 < 0 then '-' else '+') ::
                natDigits (n - 1).natAbs) := by
              rw [List.dropWhile_cons_of_pos hd,
                List.dropWhile_cons_of_neg (by decide)]
            have htw : ((r' :: rs) ++ 'e' ::
                (if n - 1 < 0 then '-' else '+') ::
                natDigits (n - 1).natAbs).takeWhile Char.isDigit =
                r' :: rs := by
              rw [takeWhile_append_all _ hrd,
                List.takeWhile_cons_of_neg (by decide), List.append_nil]
            have hdw : ((r' :: rs) ++ 'e' ::
                (if n - 1 < 0 then '-' else '+') ::
                natDigits (n - 1).natAbs).dropWhile Char.isDigit =
                'e' :: (if n - 1 < 0 then '-' else '+') ::
                natDigits (n - 1).natAbs := by
              rw [dropWhile_append_all _ hrd,
                List.dropWhile_cons_of_neg (by decide)]
            simp only [parseUnsigned, hip, hr1, fracSplit_dot, htw, hdw]
            rw [if_neg (by intro h; exact absurd h.1 (by simp))]
            congr 1
            have hM : digitsVal [d] * 10 ^ (r' :: rs).length +
                digitsVal (r' :: rs) = s := by
              rw [← digitsVal_append]
              have := natDigits_val hs
              rw [hsh] at this
              exact this
            rw [hM, hexp, decValue_eq]
            rw [show n - 1 - (((r' :: rs).length : ℕ) : ℤ) =
                n - ((d :: r' :: rs : List Char).length : ℤ) from by
              simp only [List.length_cons]
              push_cast
              ring]

theorem fmtDigits_head (s : ℕ) (n : ℤ) (hs : 0 < s) :
    ∃ c r, fmtDigits s n = c :: r ∧ c.isDigit = true := by
  have hne := natDigits_ne_nil hs
  rcases hsh : natDigits s with _ | ⟨d, rest⟩
  · exact absurd hsh hne
  have hd : d.isDigit = true := by
    apply natDigits_digits (n := s)
    rw [hsh]
    exact List.mem_cons_self _ _
  simp only [fmtDigits]
  by_cases hb1 : ((natDigits s).length : ℤ) ≤ n ∧ n ≤ 21
  · rw [if_pos hb1, hsh]
    exact ⟨d, _, rfl, hd⟩
  · rw [if_neg hb1]
    by_cases hb2 : 0 < n ∧ n ≤ 21
    · rw [if_pos hb2, hsh]
      obtain ⟨m, hm⟩ : ∃ m, n.toNat = m + 1 := ⟨n.toNat - 1, by omega⟩
      rw [hm, List.take_succ_cons]
      exact ⟨d, _, rfl, hd⟩
    · rw [if_neg hb2]
      by_cases hb3 : -6 < n ∧ n ≤ 0
      · rw [if_pos hb3]
        exact ⟨'0', _, rfl, by decide⟩
      · rw [if_neg hb3, hsh]
        cases rest with
        | nil => exact ⟨d, _, rfl, hd⟩
        | cons r' rs => exact ⟨d, _, rfl, hd⟩

theorem dropWhile_ws_digit {c : Char} (r : List Char) (h : c.isDigit = true) :
    (c :: r).dropWhile Char.isWhitespace = c :: r :=
  List.dropWhile_cons_of_neg (by rw [digit_not_ws h]; exact Bool.false_ne_true)

theorem splitSign_digit {c : Char} (r : List Char) (h : c.isDigit = true) :
    splitSign (c :: r) = (false, c :: r) := by
  rw [splitSign, if_neg (digit_ne_minus h), if_neg (digit_ne_plus h)]

theorem infinity_not_digit_head {c : Char} (r : List Char)
    (h : c.isDigit = true) : "Infinity".data.isPrefixOf (c :: r) = false := by
  rw [show "Infinity".data = 'I' :: "nfinity".data from rfl]
  rw [List.isPrefixOf]
  rw [beq_I_of_digit h, Bool.false_and]

theorem jsParseFloat_fmt_pos (s : ℕ) (n : ℤ) (hs : 0 < s) :
    jsParseFloat (String.mk (fmtDigits s n)) =
      .finite ((s : ℚ) * (10 : ℚ) ^ (n - ((natDigits s).length : ℤ))) := by
  obtain ⟨c, r, hcr, hcd⟩ := fmtDigits_head s n hs
  have h1 : (fmtDigits s n).dropWhile Char.isWhitespace = fmtDigits s n := by
    rw [hcr]
    exact dropWhile_ws_digit r hcd
  have h2 : splitSign (fmtDigits s n) = (false, fmtDigits s n) := by
    rw [hcr]
    exact splitSign_digit r hcd
  have h3 : "Infinity".data.isPrefixOf (fmtDigits s n) = false := by
    rw [hcr]
    exact infinity_not_digit_head r hcd
  simp only [jsParseFloat, show (String.mk (fmtDigits s n)).data =
    fmtDigits s n from rfl, h1, h2, h3, parseUnsigned_fmt s n hs,
    Bool.false_eq_true, if_false]

theorem jsParseFloat_fmt_neg (s : ℕ) (n : ℤ) (hs : 0 < s) :
    jsParseFloat (String.mk ('-' :: fmtDigits s n)) =
      .finite (-((s : ℚ) * (10 : ℚ) ^ (n - ((natDigits s).length : ℤ)))) := by
  obtain ⟨c, r, hcr, hcd⟩ := fmtDigits_head s n hs
  have h1 : ('-' :: fmtDigits s n).dropWhile Char.isWhitespace =
      '-' :: fmtDigits s n := List.dropWhile_cons_of_neg (by decide)
  have h2 : splitSign ('-' :: fmtDigits s n) = (true, fmtDigits s n) := by
    rw [splitSign, if_pos rfl]
  have h3 : "Infinity".data.isPrefixOf (fmtDigits s n) = false := by
    rw [hcr]
    exact infinity_not_digit_head r hcd
  simp only [jsParseFloat, show (String.mk ('-' :: fmtDigits s n)).data =
    '-' :: fmtDigits s n from rfl, h1, h2, h3, parseUnsigned_fmt s n hs,
    Bool.false_eq_true, if_false, ratNeg_eq]
  simp

theorem jsParseInt_all_digits (l : List Char)
    (hall : ∀ c ∈ l, c.isDigit = true) (hne : l ≠ []) :
    jsParseInt (String.mk l) = .finite ((digitsVal l : ℚ)) := by
  rcases l with _ | ⟨c, r⟩
  · exact absurd rfl hne
  have hcd : c.isDigit = true := hall c (List.mem_cons_self _ _)
  simp only [jsParseInt, show (String.mk (c :: r)).data = c :: r from rfl,
    dropWhile_ws_digit r hcd, splitSign_digit r hcd]
  rw [takeWhile_all hall]
  rw [if_neg (by simp), if_neg (by simp [Bool.false_eq_true])]
  rw [decValue_eq]
  simp

theorem jsParseInt_all_digits_neg (l : List Char)
    (hall : ∀ c ∈ l, c.isDigit = true) (hne : l ≠ []) :
    jsParseInt (String.mk ('-' :: l)) = .finite (-((digitsVal l : ℚ))) := by
  rcases l with _ | ⟨c, r⟩
  · exact absurd rfl hne
  have hcd : c.isDigit = true := hall c (List.mem_cons_self _ _)
  have h1 : ('-' :: c :: r).dropWhile Char.isWhitespace = '-' :: c :: r :=
    List.dropWhile_cons_of_neg (by decide)
  have h2 : splitSign ('-' :: c :: r) = (true, c :: r) := by
    rw [splitSign, if_pos rfl]
  simp only [jsParseInt, show (String.mk ('-' :: c :: r)).data =
    '-' :: c :: r from rfl, h1, h2]
  rw [takeWhile_all hall]
  rw [if_neg (by simp)]
  simp only [if_pos rfl, ratNeg_eq, decValue_eq]
  simp

theorem float_roundtrip (q : ℚ) (hd : IsDec q) :
    jsParseFloat (jsNumToString (.finite q)) = .finite q := by
  rcases lt_trichotomy q.num 0 with hneg | h0 | hpos
  · have h00 : ¬ q.num = 0 := by omega
    rw [jsNumToString, if_neg h00, if_pos hneg]
    obtain ⟨hp, hnd, hval⟩ := decSig_spec q hd h00
    rw [jsParseFloat_fmt_neg _ _ hp, hval]
    congr 1
    rw [show ((q.num.natAbs : ℕ) : ℚ) = -((q.num : ℤ) : ℚ) from by
      rw [Int.cast_natAbs, abs_of_neg hneg]
      push_cast
      ring]
    rw [neg_div, neg_neg, Rat.num_div_den]
  · rw [jsNumToString, if_pos h0]
    rw [show q = 0 from Rat.num_eq_zero.mp h0]
    decide
  · have h00 : ¬ q.num = 0 := by omega
    rw [jsNumToString, if_neg h00, if_neg (by omega)]
    obtain ⟨hp, hnd, hval⟩ := decSig_spec q hd h00
    rw [jsParseFloat_fmt_pos _ _ hp, hval]
    congr 1
    rw [show ((q.num.natAbs : ℕ) : ℚ) = ((q.num : ℤ) : ℚ) from by
      rw [Int.cast_natAbs, abs_of_pos hpos]]
    rw [Rat.num_div_den]

theorem int_decSig (m : ℤ) (hm : m.natAbs < 10 ^ 21) (hm0 : m ≠ 0) :
    ((natDigits (decSig (m : ℚ)).1).length : ℤ) ≤ (decSig (m : ℚ)).2 ∧
    (decSig (m : ℚ)).2 ≤ 21 ∧
    (decSig (m : ℚ)).1 *
      10 ^ ((decSig (m : ℚ)).2 - ((natDigits (decSig (m : ℚ)).1).length : ℤ)).toNat
      = m.natAbs := by
  have hnum : (m : ℚ).num = m := Rat.num_intCast m
  have hden : (m : ℚ).den = 1 := Rat.den_intCast m
  have hd : IsDec (m : ℚ) := by
    rw [IsDec, hden]
    exact one_dvd _
  have h00 : (m : ℚ).num ≠ 0 := by
    rw [hnum]
    exact hm0
  obtain ⟨hp, hnd, hval⟩ := decSig_spec (m : ℚ) hd h00
  rw [hnum, hden] at hval
  simp only [Nat.cast_one, div_one] at hval
  have hk1 : 1 ≤ (natDigits (decSig (m : ℚ)).1).length :=
    List.length_pos.mpr (natDigits_ne_nil hp)
  have hkle : ((natDigits (decSig (m : ℚ)).1).length : ℤ) ≤ (decSig (m : ℚ)).2 := by
    by_contra hlt
    push_neg at hlt
    have hj : 1 ≤ (((natDigits (decSig (m : ℚ)).1).length : ℤ) - (decSig (m : ℚ)).2).toNat := by
      omega
    have h2 : ((decSig (m : ℚ)).1 : ℚ) =
        (m.natAbs : ℚ) * (10 : ℚ) ^ (((natDigits (decSig (m : ℚ)).1).length : ℤ) - (decSig (m : ℚ)).2) := by
      rw [← hval, mul_assoc, ← zpow_add₀ (by norm_num : (10:ℚ) ≠ 0)]
      norm_num
    rw [show ((natDigits (decSig (m : ℚ)).1).length : ℤ) - (decSig (m : ℚ)).2 =
      (((((natDigits (decSig (m : ℚ)).1).length : ℤ) - (decSig (m : ℚ)).2).toNat : ℕ) : ℤ)
      from by omega, zpow_natCast] at h2
    have h3 : (decSig (m : ℚ)).1 =
        m.natAbs * 10 ^ ((((natDigits (decSig (m : ℚ)).1).length : ℤ) - (decSig (m : ℚ)).2).toNat) := by
      exact_mod_cast h2
    apply hnd
    rw [h3]
    exact Dvd.dvd.mul_left (dvd_pow_self 10 (by omega)) _
  have hval2 : (decSig (m : ℚ)).1 *
      10 ^ (((decSig (m : ℚ)).2 - ((natDigits (decSig (m : ℚ)).1).length : ℤ)).toNat)
      = m.natAbs := by
    have h2 := hval
    rw [show (decSig (m : ℚ)).2 - ((natDigits (decSig (m : ℚ)).1).length : ℤ) =
      ((((decSig (m : ℚ)).2 - ((natDigits (decSig (m : ℚ)).1).length : ℤ)).toNat : ℕ) : ℤ)
      from by omega, zpow_natCast] at h2
    exact_mod_cast h2
  refine ⟨hkle, ?_, hval2⟩
  by_contra h21
  push_neg at h21
  have hlb : 10 ^ ((natDigits (decSig (m : ℚ)).1).length - 1) ≤ (decSig (m : ℚ)).1 :=
    natDigits_lb hp
  have : 10 ^ ((natDigits (decSig (m : ℚ)).1).length - 1 +
      (((decSig (m : ℚ)).2 - ((natDigits (decSig (m : ℚ)).1).length : ℤ)).toNat)) ≤ m.natAbs := by
    rw [pow_add, ← hval2]
    exact Nat.mul_le_mul_right _ hlb
  have hge : 21 ≤ (natDigits (decSig (m : ℚ)).1).length - 1 +
      (((decSig (m : ℚ)).2 - ((natDigits (decSig (m : ℚ)).1).length : ℤ)).toNat) := by
    omega
  have := le_trans (Nat.pow_le_pow_right (by norm_num) hge) this
  omega

theorem int_roundtrip (m : ℤ) (hm : m.natAbs < 10 ^ 21) :
    jsParseInt (jsNumToString (.finite (m : ℚ))) = .finite ((m : ℚ)) := by
  by_cases hm0 : m = 0
  · subst hm0
    rw [show ((0 : ℤ) : ℚ) = 0 from by norm_num]
    decide
  obtain ⟨hkle, h21, hval⟩ := int_decSig m hm hm0
  have hnum : (m : ℚ).num = m := Rat.num_intCast m
  have hp : 0 < (decSig (m : ℚ)).1 := by
    rcases Nat.eq_zero_or_pos (decSig (m : ℚ)).1 with h | h
    · rw [h, Nat.zero_mul] at hval
      have := Int.natAbs_pos.mpr hm0
      omega
    · exact h
  have hfmt : fmtDigits (decSig (m : ℚ)).1 (decSig (m : ℚ)).2 =
      natDigits (decSig (m : ℚ)).1 ++
      List.replicate ((decSig (m : ℚ)).2 -
        ((natDigits (decSig (m : ℚ)).1).length : ℤ)).toNat '0' := by
    simp only [fmtDigits]
    rw [if_pos ⟨hkle, h21⟩]
  have hall : ∀ c ∈ natDigits (decSig (m : ℚ)).1 ++
      List.replicate ((decSig (m : ℚ)).2 -
        ((natDigits (decSig (m : ℚ)).1).length : ℤ)).toNat '0',
      c.isDigit = true := by
    intro c hc
    rcases List.mem_append.mp hc with hc | hc
    · exact natDigits_digits c hc
    · rw [List.eq_of_mem_replicate hc]
      decide
  have hnenil : natDigits (decSig (m : ℚ)).1 ++
      List.replicate ((decSig (m : ℚ)).2 -
        ((natDigits (decSig (m : ℚ)).1).length : ℤ)).toNat '0' ≠ [] := by
    intro h
    exact natDigits_ne_nil hp (List.append_eq_nil.mp h).1
  have hdv : digitsVal (natDigits (decSig (m : ℚ)).1 ++
      List.replicate ((decSig (m : ℚ)).2 -
        ((natDigits (decSig (m : ℚ)).1).length : ℤ)).toNat '0') = m.natAbs := by
    rw [digitsVal_append, natDigits_val hp, digitsVal_replicate_zero,
      List.length_replicate, Nat.add_zero, hval]
  rcases lt_trichotomy m 0 with hneg | h0 | hpos
  · rw [jsNumToString, if_neg (by rw [hnum]; omega), if_pos (by rw [hnum]; omega)]
    rw [hfmt, jsParseInt_all_digits_neg _ hall hnenil, hdv]
    congr 1
    rw [Int.cast_natAbs, abs_of_neg hneg]
    push_cast
    ring
  · exact absurd h0 hm0
  · rw [jsNumToString, if_neg (by rw [hnum]; omega), if_neg (by rw [hnum]; omega)]
    rw [hfmt, jsParseInt_all_digits _ hall hnenil, hdv]
    congr 1
    rw [Int.cast_natAbs, abs_of_pos hpos]


theorem countP_le_range (P : ℕ → Bool) (N : ℕ) :
    (List.range N).countP P ≤ N := by
  have := List.countP_le_length (p := P) (l := List.range N)
  rwa [List.length_range] at this

theorem countP_range_succ (P : ℕ → Bool) (N : ℕ) :
    (List.range (N+1)).countP P =
      (List.range N).countP P + if P N then 1 else 0 := by
  rw [List.range_succ, List.countP_append]
  simp [List.countP_cons]

theorem countP_range_antitone (P : ℕ → Bool)
    (hA : ∀ i, P (i+1) = true → P i = true) (N : ℕ) :
    ∀ k, k < N → (P k = true ↔ k < (List.range N).countP P) := by
  induction N with
  | zero => intro k hk; omega
  | succ N ih =>
    have hdown : ∀ j k, k + j = N → P N = true → P k = true := by
      intro j
      induction j with
      | zero =>
        intro k hk hP
        rw [show k = N from by omega]
        exact hP
      | succ j ihj =>
        intro k hk hP
        exact hA k (ihj (k+1) (by omega) hP)
    intro k hk
    by_cases hPN : P N = true
    · have hall : ∀ a ∈ List.range (N+1), P a = true := by
        intro a ha
        rw [List.mem_range] at ha
        exact hdown (N - a) a (by omega) hPN
      rw [List.countP_eq_length.mpr hall, List.length_range]
      simp [hk]
      exact hdown (N - k) k (by omega) hPN
    · have hc2 : (List.range (N+1)).countP P = (List.range N).countP P := by
        rw [countP_range_succ, if_neg hPN, Nat.add_zero]
      rcases Nat.lt_succ_iff_lt_or_eq.mp hk with hk' | rfl
      · rw [hc2]
        exact ih k hk'
      · rw [hc2]
        constructor
        · intro h
          exact absurd h hPN
        · intro h
          have hle := countP_le_range P k
          omega

def msPerDay : ℤ := 86400000

/-- ECMAScript `DayFromYear(y)`. -/
def dayFromYear (y : ℤ) : ℤ :=
  365 * (y - 1970) + (y - 1969) / 4 - (y - 1901) / 100 + (y - 1601) / 400

/-- ECMAScript leap-year test (`DaysInYear(y) = 366`). -/
def isLeap (y : ℤ) : Bool :=
  decide ((y % 4 = 0 ∧ y % 100 ≠ 0) ∨ y % 400 = 0)

theorem dayFromYear_succ (y : ℤ) :
    dayFromYear (y + 1) = dayFromYear y + (if isLeap y then 366 else 365) := by
  cases hL : isLeap y
  · rw [if_neg (by simp)]
    rw [isLeap, decide_eq_false_iff_not] at hL
    rw [dayFromYear, dayFromYear]
    push_neg at hL
    by_cases h4 : y % 4 = 0
    · have h100 : y % 100 = 0 := by tauto
      have h400 : y % 400 ≠ 0 := hL.2
      omega
    · omega
  · rw [if_pos rfl]
    rw [isLeap, decide_eq_true_eq] at hL
    rw [dayFromYear, dayFromYear]
    rcases hL with ⟨h4, h100⟩ | h400
    · omega
    · omega

theorem dayFromYear_mono {y y' : ℤ} (h : y ≤ y') :
    dayFromYear y ≤ dayFromYear y' := by
  have step : ∀ z : ℤ, dayFromYear z ≤ dayFromYear (z + 1) := by
    intro z
    rw [dayFromYear_succ]
    split <;> omega
  exact @Int.le_induction (fun n => dayFromYear y ≤ dayFromYear n) y le_rfl
    (fun n _ ih => le_trans ih (step n)) y' h

theorem dayFromYear_add400 (y : ℤ) :
    dayFromYear (y + 400) = dayFromYear y + 146097 := by
  rw [dayFromYear, dayFromYear]
  omega

theorem dayFromYear_mul400 (e : ℤ) :
    dayFromYear (400 * e) = dayFromYear 0 + 146097 * e := by
  induction e using Int.induction_on with
  | hz => simp
  | hp k ih =>
    have h1 : 400 * ((k : ℤ) + 1) = 400 * k + 400 := by ring
    rw [h1, dayFromYear_add400, ih]
    ring
  | hn k ih =>
    have h2 : 400 * (-(k : ℤ) - 1) + 400 = 400 * (-(k : ℤ)) := by ring
    have h3 := dayFromYear_add400 (400 * (-(k : ℤ) - 1))
    rw [h2] at h3
    rw [show (400 : ℤ) * (-(k : ℤ) - 1) = 400 * (-(k:ℤ)) - 400 from by ring] at h3 ⊢
    omega

/-- ECMAScript `YearFromTime` on day numbers: the greatest `y` with
`dayFromYear y ≤ d`.  Computed by locating the 400-year era containing
`d` and scanning its 400 years. -/
def yearFromDay (d : ℤ) : ℤ :=
  400 * ((d - dayFromYear 0) / 146097) +
    ((List.range 400).countP
      (fun k : ℕ =>
        decide (dayFromYear (400 * ((d - dayFromYear 0) / 146097) + (k : ℤ)) ≤ d))) - 1

theorem yearFromDay_spec (d : ℤ) :
    dayFromYear (yearFromDay d) ≤ d ∧ d < dayFromYear (yearFromDay d + 1) := by
  have hbase : dayFromYear (400 * ((d - dayFromYear 0) / 146097)) ≤ d := by
    rw [dayFromYear_mul400]
    have h1 := Int.ediv_add_emod (d - dayFromYear 0) 146097
    have h2 := Int.emod_nonneg (d - dayFromYear 0) (by norm_num : (146097:ℤ) ≠ 0)
    omega
  have htop : d < dayFromYear (400 * ((d - dayFromYear 0) / 146097) + 400) := by
    rw [dayFromYear_add400, dayFromYear_mul400]
    have h1 := Int.ediv_add_emod (d - dayFromYear 0) 146097
    have h2 := Int.emod_lt_of_pos (d - dayFromYear 0) (by norm_num : (0:ℤ) < 146097)
    omega
  obtain ⟨P, hP⟩ : ∃ P : ℕ → Bool, P = fun k : ℕ =>
      decide (dayFromYear (400 * ((d - dayFromYear 0) / 146097) + (k : ℤ)) ≤ d) :=
    ⟨_, rfl⟩
  have hPk : ∀ k : ℕ, (P k = true) ↔
      dayFromYear (400 * ((d - dayFromYear 0) / 146097) + (k : ℤ)) ≤ d := by
    intro k
    rw [hP]
    simp
  have hA : ∀ i, P (i+1) = true → P i = true := by
    intro i h
    rw [hPk] at h ⊢
    refine le_trans (dayFromYear_mono (by push_cast; omega)) h
  have hiff := countP_range_antitone P hA 400
  have h0 : P 0 = true := by
    rw [hPk]
    simpa using hbase
  have hc1 : 1 ≤ (List.range 400).countP P := by
    have := (hiff 0 (by norm_num)).mp h0
    omega
  have hc4 := countP_le_range P 400
  have hyd : yearFromDay d = 400 * ((d - dayFromYear 0) / 146097) +
      ((List.range 400).countP P : ℤ) - 1 := by
    rw [yearFromDay, hP]
  rw [hyd]
  constructor
  · have hPc : P ((List.range 400).countP P - 1) = true :=
      (hiff _ (by omega)).mpr (by omega)
    rw [hPk] at hPc
    have hcast : (400 * ((d - dayFromYear 0) / 146097) +
        ((List.range 400).countP P : ℤ) - 1) =
        (400 * ((d - dayFromYear 0) / 146097) +
        (((List.range 400).countP P - 1 : ℕ) : ℤ)) := by
      push_cast
      omega
    rw [hcast]
    exact hPc
  · by_cases hful : (List.range 400).countP P = 400
    · rw [hful]
      rw [show (400 * ((d - dayFromYear 0) / 146097) + ((400:ℕ) : ℤ) - 1 + 1) =
        (400 * ((d - dayFromYear 0) / 146097) + 400) from by push_cast; ring]
      exact htop
    · have hnc : ¬ P ((List.range 400).countP P) = true := by
        intro h
        have := (hiff _ (by omega)).mp h
        omega
      rw [hPk] at hnc
      push_neg at hnc
      rw [show (400 * ((d - dayFromYear 0) / 146097) +
          ((List.range 400).countP P : ℤ) - 1 + 1) =
          (400 * ((d - dayFromYear 0) / 146097) +
          (((List.range 400).countP P : ℕ) : ℤ)) from by push_cast; ring]
      exact hnc

theorem yearFromDay_unique (d y : ℤ) (h1 : dayFromYear y ≤ d)
    (h2 : d < dayFromYear (y + 1)) : yearFromDay d = y := by
  obtain ⟨s1, s2⟩ := yearFromDay_spec d
  by_contra hne
  rcases lt_or_gt_of_ne hne with hlt | hgt
  · have := dayFromYear_mono (show yearFromDay d + 1 ≤ y by omega)
    omega
  · have := dayFromYear_mono (show y + 1 ≤ yearFromDay d by omega)
    omega

/-- ECMAScript cumulative day counts before each (0-based) month
(`MonthFromTime`'s table); index `12` gives the year length. -/
def cumDays (leap : Bool) (m : ℕ) : ℤ :=
  (if 12 ≤ m then 365
   else [(0:ℤ), 31, 59, 90, 120, 151, 181, 212, 243, 273, 304, 334].getD m 0)
  + (if leap = true ∧ 2 ≤ m then 1 else 0)

theorem cumDays_ge12 (leap : Bool) {m : ℕ} (hm : 12 ≤ m) :
    cumDays leap m = 365 + (if leap = true then 1 else 0) := by
  by_cases hl : leap = true
  · simp [cumDays, hm, hl, show 2 ≤ m by omega]
  · simp [cumDays, hm, hl]

theorem cumDays_mono (leap : Bool) (m : ℕ) :
    cumDays leap m ≤ cumDays leap (m + 1) := by
  by_cases hm : m < 12
  · have hsmall : ∀ l : Bool, ∀ m' < 12, cumDays l m' ≤ cumDays l (m' + 1) := by
      decide
    exact hsmall leap m hm
  · rw [cumDays_ge12 leap (by omega), cumDays_ge12 leap (by omega)]

/-- ECMAScript `MonthFromTime` on a day-within-year: the (0-based) month
whose cumulative span contains it. -/
def monthFromDwy (leap : Bool) (dwy : ℤ) : ℕ :=
  ((List.range 12).countP (fun m => decide (cumDays leap m ≤ dwy))) - 1

theorem monthFromDwy_spec (leap : Bool) (dwy : ℤ) (h0 : 0 ≤ dwy)
    (hub : dwy < cumDays leap 12) :
    monthFromDwy leap dwy ≤ 11 ∧
    cumDays leap (monthFromDwy leap dwy) ≤ dwy ∧
    dwy < cumDays leap (monthFromDwy leap dwy + 1) := by
  obtain ⟨P, hP⟩ : ∃ P : ℕ → Bool,
      P = fun m : ℕ => decide (cumDays leap m ≤ dwy) := ⟨_, rfl⟩
  have hPk : ∀ m : ℕ, (P m = true) ↔ cumDays leap m ≤ dwy := by
    intro m
    rw [hP]
    simp
  have hA : ∀ i, P (i+1) = true → P i = true := by
    intro i h
    rw [hPk] at h ⊢
    exact le_trans (cumDays_mono leap i) h
  have hiff := countP_range_antitone P hA 12
  have h0' : P 0 = true := by
    rw [hPk]
    have : cumDays leap 0 = 0 := by cases leap <;> decide
    omega
  have hc1 : 1 ≤ (List.range 12).countP P := by
    have := (hiff 0 (by norm_num)).mp h0'
    omega
  have hc12 := countP_le_range P 12
  have hm : monthFromDwy leap dwy = (List.range 12).countP P - 1 := by
    rw [monthFromDwy, hP]
  rw [hm]
  refine ⟨by omega, ?_, ?_⟩
  · have hPc : P ((List.range 12).countP P - 1) = true :=
      (hiff _ (by omega)).mpr (by omega)
    rw [hPk] at hPc
    exact hPc
  · by_cases hful : (List.range 12).countP P = 12
    · rw [hful]
      simpa using hub
    · have hnc : ¬ P ((List.range 12).countP P) = true := by
        intro h
        have := (hiff _ (by omega)).mp h
        omega
      rw [hPk] at hnc
      push_neg at hnc
      rw [show (List.range 12).countP P - 1 + 1 = (List.range 12).countP P
        from by omega]
      exact hnc

theorem daysInYear_eq (y : ℤ) :
    dayFromYear (y + 1) = dayFromYear y + cumDays (isLeap y) 12 := by
  rw [dayFromYear_succ, cumDays_ge12 (isLeap y) (le_refl 12)]
  cases isLeap y <;> simp

def hourFromTime (t : ℤ) : ℤ := (t / 3600000) % 24

def minFromTime (t : ℤ) : ℤ := (t / 60000) % 60

def secFromTime (t : ℤ) : ℤ := (t / 1000) % 60

def msFromTime (t : ℤ) : ℤ := t % 1000

theorem time_decomp (t : ℤ) :
    t = (t / msPerDay) * msPerDay + hourFromTime t * 3600000 +
      minFromTime t * 60000 + secFromTime t * 1000 + msFromTime t := by
  rw [msPerDay, hourFromTime, minFromTime, secFromTime, msFromTime]
  omega

theorem time_bounds (t : ℤ) :
    0 ≤ hourFromTime t ∧ hourFromTime t < 24 ∧
    0 ≤ minFromTime t ∧ minFromTime t < 60 ∧
    0 ≤ secFromTime t ∧ secFromTime t < 60 ∧
    0 ≤ msFromTime t ∧ msFromTime t < 1000 := by
  rw [hourFromTime, minFromTime, secFromTime, msFromTime]
  refine ⟨?_, ?_, ?_, ?_, ?_, ?_, ?_, ?_⟩ <;> omega

/-- fixed-width zero-padded decimal numeral, most significant digit
first. -/
def padN (k : ℕ) (x : ℕ) : List Char :=
  (List.range k).map (fun i => Nat.digitChar (x / 10 ^ (k - 1 - i) % 10))

/-- parse exactly `k` decimal digits, returning their value and the rest. -/
def parseDigitsN : ℕ → List Char → Option (ℕ × List Char)
  | 0, l => some (0, l)
  | _+1, [] => none
  | n+1, c :: r =>
    if c.isDigit then
      (parseDigitsN n r).map (fun p => (digitVal c * 10 ^ n + p.1, p.2))
    else none

theorem mod_pow_div_mod (x j r : ℕ) :
    (x % 10 ^ (j + 1 + r)) / 10 ^ j % 10 = x / 10 ^ j % 10 := by
  rw [show j + 1 + r = j + (1 + r) from by omega, pow_add,
    Nat.mod_mul_right_div_self,
    Nat.mod_mod_of_dvd _ (dvd_pow_self 10 (by omega))]

theorem padN_succ (k x : ℕ) :
    padN (k + 1) x = Nat.digitChar (x / 10 ^ k % 10) :: padN k (x % 10 ^ k) := by
  rw [padN, List.range_succ_eq_map, List.map_cons, List.map_map]
  have hhead : (x / 10 ^ (k + 1 - 1 - 0) % 10).digitChar =
      (x / 10 ^ k % 10).digitChar := by
    congr 2
  rw [hhead]
  congr 1
  rw [padN]
  refine List.map_congr_left ?_
  intro i hi
  rw [List.mem_range] at hi
  simp only [Function.comp]
  rw [show k + 1 - 1 - (i + 1) = k - 1 - i from by omega]
  have hmm := mod_pow_div_mod x (k - 1 - i) i
  rw [show k - 1 - i + 1 + i = k from by omega] at hmm
  rw [hmm]

theorem parseDigitsN_pad (k x : ℕ) (hx : x < 10 ^ k) (rest : List Char) :
    parseDigitsN k (padN k x ++ rest) = some (x, rest) := by
  induction k generalizing x rest with
  | zero =>
    rw [show padN 0 x = [] from rfl, List.nil_append,
      show parseDigitsN 0 rest = some (0, rest) from rfl]
    have hx0 : x = 0 := by
      have := hx
      simp at this
      omega
    rw [hx0]
  | succ k ih =>
    rw [padN_succ, List.cons_append, parseDigitsN]
    have hdlt : x / 10 ^ k % 10 < 10 := Nat.mod_lt _ (by norm_num)
    rw [if_pos (digitChar_facts _ hdlt).2]
    rw [ih (x % 10 ^ k) (Nat.mod_lt _ (by positivity)) rest]
    rw [Option.map_some']
    congr 2
    rw [(digitChar_facts _ hdlt).1]
    have hdiv : x / 10 ^ k < 10 := by
      rw [Nat.div_lt_iff_lt_mul (by positivity)]
      rw [pow_succ] at hx
      omega
    rw [Nat.mod_eq_of_lt hdiv]
    show x / 10 ^ k * 10 ^ k + x % 10 ^ k = x
    rw [Nat.mul_comm (x / 10 ^ k) (10 ^ k)]
    exact Nat.div_add_mod x (10 ^ k)

/-- ECMAScript `MakeDay(y, m, dt)` (month may overflow into years). -/
def makeDay (y mn dt : ℤ) : ℤ :=
  dayFromYear (y + mn / 12) + cumDays (isLeap (y + mn / 12)) (mn % 12).toNat +
    dt - 1

/-- the character content of `Date.prototype.toISOString`:
`YYYY-MM-DDTHH:mm:ss.sssZ`, with the expanded `±YYYYYY` year form outside
`[0, 9999]`. -/
def isoChars (t : ℤ) : List Char :=
  let d := t / msPerDay
  let y := yearFromDay d
  let dwy := d - dayFromYear y
  let m := monthFromDwy (isLeap y) dwy
  let dd := dwy - cumDays (isLeap y) m + 1
  (if 0 ≤ y ∧ y ≤ 9999 then padN 4 y.toNat
   else (if y < 0 then '-' else '+') :: padN 6 y.natAbs) ++
  '-' :: padN 2 (m + 1) ++ '-' :: padN 2 dd.toNat ++
  'T' :: padN 2 (hourFromTime t).toNat ++ ':' :: padN 2 (minFromTime t).toNat ++
  ':' :: padN 2 (secFromTime t).toNat ++ '.' :: padN 3 (msFromTime t).toNat ++
  ['Z']

def toISOString (t : ℤ) : String := String.mk (isoChars t)

def parseYear (l : List Char) : Option (ℤ × List Char) :=
  match l with
  | c :: r =>
    if c = '+' then (parseDigitsN 6 r).map (fun p => ((p.1 : ℤ), p.2))
    else if c = '-' then
      match parseDigitsN 6 r with
      | none => none
      | some p => if p.1 = 0 then none else some (-(p.1 : ℤ), p.2)
    else (parseDigitsN 4 l).map (fun p => ((p.1 : ℤ), p.2))
  | [] => none

def parseMD (y : ℤ) (r1 : List Char) : Option (ℤ × List Char) :=
  match r1 with
  | '-' :: r2 =>
    (match parseDigitsN 2 r2 with
    | none => none
    | some (mo, r3) =>
      if 1 ≤ mo ∧ mo ≤ 12 then
        match r3 with
        | '-' :: r4 =>
          (match parseDigitsN 2 r4 with
          | none => none
          | some (dd, r5) =>
            if 1 ≤ dd ∧ (dd : ℤ) ≤
                cumDays (isLeap y) mo - cumDays (isLeap y) (mo - 1) then
              some (makeDay y ((mo : ℤ) - 1) (dd : ℤ), r5)
            else none)
        | _ => some (makeDay y ((mo : ℤ) - 1) 1, r3)
      else none)
  | _ => some (makeDay y 0 1, r1)

def parseTZ (l : List Char) : Option (Option ℤ) :=
  match l with
  | [] => some none
  | ['Z'] => some (some 0)
  | c :: r =>
    if c = '+' ∨ c = '-' then
      match parseDigitsN 2 r with
      | none => none
      | some (hh, r2) =>
        match r2 with
        | ':' :: r3 =>
          (match parseDigitsN 2 r3 with
          | none => none
          | some (mm, r4) =>
            if r4 = [] ∧ hh ≤ 23 ∧ mm ≤ 59 then
              some (some ((if c = '-' then -1 else 1) * ((hh : ℤ) * 60 + mm)))
            else none)
        | _ => none
    else none

def parseSecFrac (l : List Char) : Option (ℤ × ℤ × List Char) :=
  match l with
  | ':' :: r =>
    (match parseDigitsN 2 r with
    | none => none
    | some (ss, r2) =>
      match r2 with
      | '.' :: r3 =>
        (match parseDigitsN 3 r3 with
        | none => none
        | some (ms, r4) => some ((ss : ℤ), (ms : ℤ), r4))
      | _ => some ((ss : ℤ), 0, r2))
  | _ => some (0, 0, l)

def parseTime (l : List Char) : Option (ℤ × Option ℤ) :=
  match parseDigitsN 2 l with
  | none => none
  | some (hh, r1) =>
    match r1 with
    | ':' :: r2 =>
      (match parseDigitsN 2 r2 with
      | none => none
      | some (mi, r3) =>
        match parseSecFrac r3 with
        | none => none
        | some (ss, ms, r4) =>
          match parseTZ r4 with
          | none => none
          | some tz =>
            if ((hh ≤ 23) ∨ (hh = 24 ∧ mi = 0 ∧ ss = 0 ∧ ms = 0)) ∧
                mi ≤ 59 ∧ ss ≤ 59 then
              some ((hh : ℤ) * 3600000 + (mi : ℤ) * 60000 +
                ss * 1000 + ms, tz)
            else none)
    | _ => none

/-- ECMAScript `TimeClip`. -/
def timeClip (t : ℤ) : Option ℤ :=
  if t.natAbs ≤ 8640000000000000 then some t else none

/-- `Date.parse` restricted to the ECMAScript Date Time String Format.
`tzLocalMin` is the host time zone's offset east of UTC in minutes, used
for date-time forms without a UTC offset (which the format interprets as
local time); date-only forms are UTC. -/
def jsDateParse (tzLocalMin : ℤ) (str : String) : Option ℤ :=
  match parseYear str.data with
  | none => none
  | some (y, r1) =>
    match parseMD y r1 with
    | none => none
    | some (day, rest) =>
      match rest with
      | [] => timeClip (day * msPerDay)
      | 'T' :: r =>
        (match parseTime r with
        | none => none
        | some (tod, tzo) =>
          match tzo with
          | some off => timeClip (day * msPerDay + tod - off * 60000)
          | none => timeClip (day * msPerDay + tod - tzLocalMin * 60000))
      | _ => none

set_option maxRecDepth 100000

theorem parseYear_pad4 (x : ℕ) (hx : x < 10000) (rest : List Char) :
    parseYear (padN 4 x ++ rest) = some ((x : ℤ), rest) := by
  have hd10 : x / 10 ^ 3 % 10 < 10 := Nat.mod_lt _ (by norm_num)
  have hsplit : padN 4 x ++ rest =
      Nat.digitChar (x / 10 ^ 3 % 10) :: (padN 3 (x % 10 ^ 3) ++ rest) := by
    rw [padN_succ]
    rfl
  rw [hsplit, parseYear,
    if_neg (digit_ne_plus (digitChar_facts _ hd10).2),
    if_neg (digit_ne_minus (digitChar_facts _ hd10).2),
    ← hsplit, parseDigitsN_pad 4 x (by omega) rest]
  rfl

theorem parseYear_pos6 (x : ℕ) (hx : x < 1000000) (rest : List Char) :
    parseYear ('+' :: (padN 6 x ++ rest)) = some ((x : ℤ), rest) := by
  rw [parseYear, if_pos rfl, parseDigitsN_pad 6 x (by omega) rest]
  rfl

theorem parseYear_neg6 (x : ℕ) (hx : x < 1000000) (hx0 : x ≠ 0)
    (rest : List Char) :
    parseYear ('-' :: (padN 6 x ++ rest)) = some (-(x : ℤ), rest) := by
  rw [parseYear, if_neg (by decide), if_pos rfl,
    parseDigitsN_pad 6 x (by omega) rest]
  show (if x = 0 then none else some (-(x : ℤ), rest)) = some (-(x : ℤ), rest)
  rw [if_neg hx0]

theorem parseMD_pads (y : ℤ) (mo dd : ℕ) (rest : List Char)
    (hmo : 1 ≤ mo ∧ mo ≤ 12)
    (hdd : 1 ≤ dd ∧ (dd : ℤ) ≤
      cumDays (isLeap y) mo - cumDays (isLeap y) (mo - 1)) :
    parseMD y ('-' :: (padN 2 mo ++ '-' :: (padN 2 dd ++ rest))) =
      some (makeDay y ((mo : ℤ) - 1) (dd : ℤ), rest) := by
  have hdm : cumDays (isLeap y) mo - cumDays (isLeap y) (mo - 1) ≤ 31 := by
    have hsmall : ∀ l : Bool, ∀ mo' < 13, 1 ≤ mo' →
        cumDays l mo' - cumDays l (mo' - 1) ≤ 31 := by decide
    exact hsmall _ mo (by omega) hmo.1
  have hdd100 : dd < 100 := by omega
  rw [parseMD, parseDigitsN_pad 2 mo (by omega) _]
  simp only []
  rw [if_pos hmo, parseDigitsN_pad 2 dd (by omega) rest]
  simp only []
  rw [if_pos hdd]

theorem parseTZ_Z : parseTZ ['Z'] = some (some 0) := rfl

theorem parseTime_pads (hh mi ss ms : ℕ) (hh23 : hh ≤ 23) (hmi : mi ≤ 59)
    (hss : ss ≤ 59) (hms : ms < 1000) :
    parseTime (padN 2 hh ++ ':' :: (padN 2 mi ++ ':' :: (padN 2 ss ++
      '.' :: (padN 3 ms ++ ['Z'])))) =
      some ((hh : ℤ) * 3600000 + (mi : ℤ) * 60000 + (ss : ℤ) * 1000 +
        (ms : ℤ), some 0) := by
  rw [parseTime, parseDigitsN_pad 2 hh (by omega) _]
  simp only []
  rw [parseDigitsN_pad 2 mi (by omega) _]
  simp only []
  rw [parseSecFrac, parseDigitsN_pad 2 ss (by omega) _]
  simp only []
  rw [parseDigitsN_pad 3 ms (by omega) _]
  simp only [parseTZ_Z]
  rw [if_pos ⟨Or.inl hh23, hmi, by exact_mod_cast hss⟩]

theorem makeDay_eval (y : ℤ) (m : ℕ) (hm : m ≤ 11) (dt : ℤ) :
    makeDay y ((((m : ℕ) + 1 : ℕ) : ℤ) - 1) dt =
      dayFromYear y + cumDays (isLeap y) m + dt - 1 := by
  rw [makeDay]
  have h1 : ((((m : ℕ) + 1 : ℕ) : ℤ) - 1) = (m : ℤ) := by push_cast; ring
  rw [h1]
  have h2 : (m : ℤ) / 12 = 0 := by omega
  have h3 : (m : ℤ) % 12 = (m : ℤ) := by omega
  rw [h2, h3, add_zero, Int.toNat_natCast]

theorem isoDate_roundtrip (tz t : ℤ) (h : t.natAbs ≤ 8640000000000000) :
    jsDateParse tz (toISOString t) = some t := by
  obtain ⟨d, hd_def⟩ : ∃ d, t / msPerDay = d := ⟨_, rfl⟩
  obtain ⟨y, hy_def⟩ : ∃ y, yearFromDay d = y := ⟨_, rfl⟩
  obtain ⟨dwy, hdwy_def⟩ : ∃ dwy, d - dayFromYear y = dwy := ⟨_, rfl⟩
  obtain ⟨m, hm_def⟩ : ∃ m, monthFromDwy (isLeap y) dwy = m := ⟨_, rfl⟩
  obtain ⟨dd, hdd_def⟩ : ∃ dd, dwy - cumDays (isLeap y) m + 1 = dd := ⟨_, rfl⟩
  have htb := time_bounds t
  have hteq := time_decomp t
  rw [msPerDay] at hteq
  have htr : -8640000000000000 ≤ t ∧ t ≤ 8640000000000000 := by omega
  have hdb : -100000000 ≤ d ∧ d ≤ 100000000 := by
    rw [← hd_def, msPerDay]
    omega
  have hd86 : t / 86400000 = d := by rw [← hd_def, msPerDay]
  have hspec := yearFromDay_spec d
  rw [hy_def] at hspec
  have hylo : -271821 ≤ y := by
    by_contra hc
    push_neg at hc
    have h1 : dayFromYear (y + 1) ≤ dayFromYear (-271821) :=
      dayFromYear_mono (by omega)
    have h2 : dayFromYear (-271821) ≤ -100000000 := by decide
    omega
  have hyhi : y ≤ 275760 := by
    by_contra hc
    push_neg at hc
    have h1 : dayFromYear 275761 ≤ dayFromYear y := dayFromYear_mono (by omega)
    have h2 : (100000000 : ℤ) < dayFromYear 275761 := by decide
    omega
  have hdwy0 : 0 ≤ dwy := by omega
  have hdiy := daysInYear_eq y
  have hdwyub : dwy < cumDays (isLeap y) 12 := by omega
  have hmspec := monthFromDwy_spec (isLeap y) dwy hdwy0 hdwyub
  rw [hm_def] at hmspec
  obtain ⟨hm11, hcle, hclt⟩ := hmspec
  have hdd1 : 1 ≤ dd := by omega
  have hddub : dd ≤ cumDays (isLeap y) (m + 1) - cumDays (isLeap y) m := by
    omega
  have hdm31 : cumDays (isLeap y) (m + 1) - cumDays (isLeap y) m ≤ 31 := by
    have hsmall : ∀ l : Bool, ∀ m' < 12,
        cumDays l (m' + 1) - cumDays l m' ≤ 31 := by decide
    exact hsmall _ m (by omega)
  have hddnat : ((dd.toNat : ℕ) : ℤ) = dd := by omega
  have hiso : isoChars t =
      (if 0 ≤ y ∧ y ≤ 9999 then padN 4 y.toNat
        else (if y < 0 then '-' else '+') :: padN 6 y.natAbs) ++
      '-' :: (padN 2 (m + 1) ++ '-' :: (padN 2 dd.toNat ++
      'T' :: (padN 2 (hourFromTime t).toNat ++
      ':' :: (padN 2 (minFromTime t).toNat ++
      ':' :: (padN 2 (secFromTime t).toNat ++
      '.' :: (padN 3 (msFromTime t).toNat ++ ['Z'])))))) := by
    simp only [isoChars]
    rw [hd_def, hy_def, hdwy_def, hm_def, hdd_def]
    simp only [List.append_assoc, List.cons_append]
  have hyear : parseYear (isoChars t) =
      some (y, '-' :: (padN 2 (m + 1) ++ '-' :: (padN 2 dd.toNat ++
        'T' :: (padN 2 (hourFromTime t).toNat ++
        ':' :: (padN 2 (minFromTime t).toNat ++
        ':' :: (padN 2 (secFromTime t).toNat ++
        '.' :: (padN 3 (msFromTime t).toNat ++ ['Z']))))))) := by
    rw [hiso]
    by_cases hy4 : 0 ≤ y ∧ y ≤ 9999
    · rw [if_pos hy4, parseYear_pad4 y.toNat (by omega) _,
        show ((y.toNat : ℕ) : ℤ) = y from by omega]
    · rw [if_neg hy4]
      by_cases hyn : y < 0
      · rw [if_pos hyn, List.cons_append,
          parseYear_neg6 y.natAbs (by omega) (by omega) _,
          show -((y.natAbs : ℕ) : ℤ) = y from by omega]
      · rw [if_neg hyn, List.cons_append,
          parseYear_pos6 y.natAbs (by omega) _,
          show ((y.natAbs : ℕ) : ℤ) = y from by omega]
  have hmd : parseMD y ('-' :: (padN 2 (m + 1) ++ '-' :: (padN 2 dd.toNat ++
      'T' :: (padN 2 (hourFromTime t).toNat ++
      ':' :: (padN 2 (minFromTime t).toNat ++
      ':' :: (padN 2 (secFromTime t).toNat ++
      '.' :: (padN 3 (msFromTime t).toNat ++ ['Z']))))))) =
      some (d, 'T' :: (padN 2 (hourFromTime t).toNat ++
        ':' :: (padN 2 (minFromTime t).toNat ++
        ':' :: (padN 2 (secFromTime t).toNat ++
        '.' :: (padN 3 (msFromTime t).toNat ++ ['Z']))))) := by
    rw [parseMD_pads y (m + 1) dd.toNat _ ⟨by omega, by omega⟩
      ⟨by omega, by rw [Nat.add_sub_cancel, hddnat]; omega⟩]
    congr 2
    rw [makeDay_eval y m (by omega) ((dd.toNat : ℕ) : ℤ), hddnat]
    omega
  have htime : parseTime (padN 2 (hourFromTime t).toNat ++
      ':' :: (padN 2 (minFromTime t).toNat ++
      ':' :: (padN 2 (secFromTime t).toNat ++
      '.' :: (padN 3 (msFromTime t).toNat ++ ['Z'])))) =
      some (((hourFromTime t).toNat : ℤ) * 3600000 +
        ((minFromTime t).toNat : ℤ) * 60000 +
        ((secFromTime t).toNat : ℤ) * 1000 +
        ((msFromTime t).toNat : ℤ), some 0) :=
    parseTime_pads _ _ _ _ (by omega) (by omega) (by omega) (by omega)
  have hdata : (toISOString t).data = isoChars t := rfl
  rw [jsDateParse]
  simp only [hdata, hyear, hmd, htime]
  rw [timeClip, if_pos (by rw [msPerDay]; omega)]
  congr 1
  rw [msPerDay]
  omega

/-- `intConverter`: parse is `Number.parseInt(value, 10)` followed by the
NaN check, stringify is `Number.prototype.toString`. -/
def intConverter : Conv JSNumber where
  parse := fun v => match jsParseInt v with
    | JSNumber.nan => none
    | n => some n
  stringify := jsNumToString

/-- `floatConverter`: parse is `Number.parseFloat(value)` followed by the
NaN check, stringify is `Number.prototype.toString`. -/
def floatConverter : Conv JSNumber where
  parse := fun v => match jsParseFloat v with
    | JSNumber.nan => none
    | n => some n
  stringify := jsNumToString

/-- `isoDateConverter`: parse is `new Date(value)` (the Date Time String
Format parser, parameterised by the host time zone offset, expressed in
minutes east of UTC, used for offset-less date-times) followed by the NaN
check; stringify is `Date.prototype.toISOString`.  A `Date` is modelled by
its time value: milliseconds since the epoch. -/
def isoDateConverter (tzLocalMin : ℤ) : Conv ℤ where
  parse := fun v => jsDateParse tzLocalMin v
  stringify := toISOString

/-- C3, counterexample: the round-trip law fails on the full value types of
the number converters.  `intConverter` has value type `number`, but
`parseInt` truncates: stringifying the number 2.5 gives `"2.5"` and parsing
it back gives 2, not 2.5.  `floatConverter` also has value type `number`,
which contains `NaN`, but `parse` maps the stringification `"NaN"` to
absent rather than back to `NaN`. -/
theorem c3_counterexample :
    intConverter.parse
        (intConverter.stringify (JSNumber.finite (Rat.divInt 5 2))) ≠
      some (JSNumber.finite (Rat.divInt 5 2)) ∧
    floatConverter.parse (floatConverter.stringify JSNumber.nan) ≠
      some JSNumber.nan := by
  constructor
  · decide
  · decide

/-- C3, amended: `parse (stringify v) = v` holds for the boolean, string
and enumeration converters on their whole value types, and for the number
and date converters on restricted legal domains: integral values of
magnitude below 10^21 for `intConverter`; non-NaN values whose finite
values are exactly-representable decimal fractions for `floatConverter`
(every finite double is such a fraction); and every representable time
value, under every host time zone, for `isoDateConverter`.  Outside these
domains the law fails (see the counterexample): `parseInt` truncates
non-integral values, and both number converters send `NaN` to absent. -/
theorem c3_roundtrip_domains :
    (∀ b : Bool,
      booleanConverter.parse (booleanConverter.stringify b) = some b) ∧
    (∀ s : String,
      stringConverter.parse (stringConverter.stringify s) = some s) ∧
    (∀ (members : List String) (v : String), v ∈ members →
      (enumConverterFactory members).parse
        ((enumConverterFactory members).stringify v) = some v) ∧
    (∀ m : ℤ, m.natAbs < 10 ^ 21 →
      intConverter.parse
          (intConverter.stringify (JSNumber.finite (m : ℚ))) =
        some (JSNumber.finite (m : ℚ))) ∧
    (∀ x : JSNumber, x ≠ JSNumber.nan →
      (∀ q : ℚ, x = JSNumber.finite q → IsDec q) →
      floatConverter.parse (floatConverter.stringify x) = some x) ∧
    (∀ tz t : ℤ, t.natAbs ≤ 8640000000000000 →
      (isoDateConverter tz).parse ((isoDateConverter tz).stringify t) =
        some t) := by
  refine ⟨?_, ?_, ?_, ?_, ?_, ?_⟩
  · intro b
    cases b <;> rfl
  · intro s
    rfl
  · intro members v hv
    show (if v ∈ members then some v else none) = some v
    rw [if_pos hv]
  · intro m hm
    show (match jsParseInt (jsNumToString (JSNumber.finite (m : ℚ))) with
      | JSNumber.nan => none
      | n => some n) = some (JSNumber.finite (m : ℚ))
    rw [int_roundtrip m hm]
  · intro x hx hdec
    cases x with
    | nan => exact absurd rfl hx
    | inf => decide
    | negInf => decide
    | finite q =>
      show (match jsParseFloat (jsNumToString (JSNumber.finite q)) with
        | JSNumber.nan => none
        | n => some n) = some (JSNumber.finite q)
      rw [float_roundtrip q (hdec q rfl)]
  · intro tz t h
    exact isoDate_roundtrip tz t h

theorem c3_roundtrip_domains_witness :
    booleanConverter.parse (booleanConverter.stringify true) = some true ∧
    stringConverter.parse (stringConverter.stringify "a") = some "a" ∧
    (enumConverterFactory ["red", "blue"]).parse
      ((enumConverterFactory ["red", "blue"]).stringify "red") =
        some "red" ∧
    intConverter.parse
        (intConverter.stringify (JSNumber.finite ((42 : ℤ) : ℚ))) =
      some (JSNumber.finite ((42 : ℤ) : ℚ)) ∧
    floatConverter.parse (floatConverter.stringify JSNumber.inf) =
      some JSNumber.inf ∧
    (isoDateConverter 0).parse ((isoDateConverter 0).stringify 0) =
      some 0 :=
  ⟨c3_roundtrip_domains.1 true,
   c3_roundtrip_domains.2.1 "a",
   c3_roundtrip_domains.2.2.1 ["red", "blue"] "red" (by decide),
   c3_roundtrip_domains.2.2.2.1 42 (by decide),
   c3_roundtrip_domains.2.2.2.2.1 JSNumber.inf (by decide)
     (fun q hq => absurd hq (fun hc => JSNumber.noConfusion hc)),
   c3_roundtrip_domains.2.2.2.2.2 0 0 (by decide)⟩

end TS
